import Mathlib

set_option maxHeartbeats 1000000

/-! Verification of the Japanese text auto-wrap core (auto_wrap_ja.py) and the
row-merge logic of merge_translated.py.  Strings are modelled as `List Char`.

Notes on the embedding:
* Python `\w` is Unicode-aware; here it is modelled as ASCII `[A-Za-z0-9_]`.
  No property proved below depends on the exact character class beyond the
  fact that the class excludes the corresponding terminator character.
* The regex `\[/?[^\[\]]+\]` is modelled by trying the variant that consumes
  the optional `/` first, matching the backtracking order of the Python
  engine.  For each of the four patterns, the greedy `+` over a character
  class that excludes the closing character is equivalent to taking the
  maximal run of class characters and then requiring the closer.
-/

/-- ASCII alphanumeric, the class `[A-Za-z0-9]` used by `_tokenize_plain`. -/
def isAsciiAlnum (c : Char) : Bool := c.isAlphanum

/-- Word character, the `\w` class (ASCII restriction of Python `\w`). -/
def isWordChar (c : Char) : Bool := c.isAlphanum || c = '_'

/-- Characters allowed inside a bracketed tag, the class `[^\[\]]`. -/
def notBracket (c : Char) : Bool := !(c = '[' || c = ']')

/-- Characters allowed inside a template variable, the class `[^{}]`. -/
def notBrace (c : Char) : Bool := !(c = '{' || c = '}')

/-- A token is a text fragment together with its display width. -/
abbrev Tok := List Char × Nat

/-- Concatenated text of a token list. -/
def textOf (ts : List Tok) : List Char := (ts.map Prod.fst).flatten

/-- Summed display width of a token list. -/
def widthSum (ts : List Tok) : Nat := (ts.map Prod.snd).sum

/-- Generic delimiter matcher: a fixed opening, a maximal run of class
characters, then a closing character.  All four regular expressions of the
combined scanner have this shape. -/
def matchDelim (opening : List Char) (cl : Char → Bool) (close : Char)
    (cs : List Char) : Option (List Char × List Char) :=
  if cs.take opening.length = opening then
    let rest := cs.drop opening.length
    let run := rest.takeWhile cl
    match rest.dropWhile cl with
    | c :: r => if c = close ∧ run ≠ [] then some (opening ++ run ++ [close], r) else none
    | [] => none
  else none

/-- The pattern `\[img:\w+\]`. -/
def matchImg (cs : List Char) : Option (List Char × List Char) :=
  matchDelim ['[', 'i', 'm', 'g', ':'] isWordChar ']' cs

/-- The branch of `\[/?[^\[\]]+\]` that consumes the optional slash. -/
def matchTagSlash (cs : List Char) : Option (List Char × List Char) :=
  matchDelim ['[', '/'] notBracket ']' cs

/-- The branch of `\[/?[^\[\]]+\]` that does not consume a slash. -/
def matchTagPlain (cs : List Char) : Option (List Char × List Char) :=
  matchDelim ['['] notBracket ']' cs

/-- The pattern `\[/?[^\[\]]+\]`: the slash branch is tried first. -/
def matchTag (cs : List Char) : Option (List Char × List Char) :=
  match matchTagSlash cs with
  | some res => some res
  | none => matchTagPlain cs

/-- The pattern `\{[^{}]+\}`. -/
def matchTemplate (cs : List Char) : Option (List Char × List Char) :=
  matchDelim ['{'] notBrace '}' cs

/-- The pattern `&\w+;`. -/
def matchEntity (cs : List Char) : Option (List Char × List Char) :=
  matchDelim ['&'] isWordChar ';' cs

/-- The combined scanner at one position: the alternatives in the priority
order of the combined regex of `tokenize`, with the display width each
branch assigns (img tag 1, other tag 0, template variable its full literal
length, entity 1). -/
def matchCombined (cs : List Char) : Option (Tok × List Char) :=
  match matchImg cs with
  | some (s, r) => some ((s, 1), r)
  | none =>
  match matchTag cs with
  | some (s, r) => some ((s, 0), r)
  | none =>
  match matchTemplate cs with
  | some (s, r) => some ((s, s.length), r)
  | none =>
  match matchEntity cs with
  | some (s, r) => some ((s, 1), r)
  | none => none

/-- Scan forward to the next position where the combined pattern matches,
returning the plain text passed over and, when found, the matched token and
the remaining input; this is how `re.finditer` advances. -/
def findNext : List Char → List Char × Option (Tok × List Char)
  | [] => ([], none)
  | c :: rest =>
    match matchCombined (c :: rest) with
    | some (tok, r) => ([], some (tok, r))
    | none =>
      match findNext rest with
      | (p, m) => (c :: p, m)

/-- Fuel-indexed `_tokenize_plain`: maximal ASCII alphanumeric runs become
single tokens of width equal to their length, every other character becomes
its own token of width 1. -/
def tokenizePlainF : Nat → List Char → List Tok
  | 0, _ => []
  | _ + 1, [] => []
  | fuel + 1, c :: rest =>
    if isAsciiAlnum c then
      let run := c :: rest.takeWhile isAsciiAlnum
      (run, run.length) :: tokenizePlainF fuel (rest.dropWhile isAsciiAlnum)
    else
      ([c], 1) :: tokenizePlainF fuel rest

/-- `_tokenize_plain` of the source. -/
def tokenizePlain (cs : List Char) : List Tok := tokenizePlainF cs.length cs

/-- Fuel-indexed `tokenize`. -/
def tokenizeF : Nat → List Char → List Tok
  | 0, cs => tokenizePlain cs
  | fuel + 1, cs =>
    match findNext cs with
    | (pre, none) => tokenizePlain pre
    | (pre, some (tok, r)) => tokenizePlain pre ++ tok :: tokenizeF fuel r

/-- `tokenize` of the source: repeatedly take the leftmost match of the
combined pattern, tokenizing the plain text in between with
`tokenizePlain`. -/
def tokenize (cs : List Char) : List Tok := tokenizeF cs.length cs

/-- Python `str.split` on a newline: no collapsing, an empty string yields
one empty part. -/
def splitNl : List Char → List (List Char)
  | [] => [[]]
  | c :: rest =>
    if c = '\n' then [] :: splitNl rest
    else
      match splitNl rest with
      | [] => [[c]]
      | p :: ps => (c :: p) :: ps

/-- One step of the greedy packing loop of `wrap_segment`, acting on the
emitted lines, the current line, and its accumulated display width. -/
def wrapStep (maxLen : Nat) (st : List (List Char) × List Char × Nat) (tok : Tok) :
    List (List Char) × List Char × Nat :=
  if 0 < tok.2 ∧ maxLen < st.2.2 + tok.2 ∧ st.2.1 ≠ [] then
    (st.1 ++ [st.2.1], tok.1, tok.2)
  else
    (st.1, st.2.1 ++ tok.1, st.2.2 + tok.2)

/-- `wrap_segment` of the source: fast path when the total display width
fits, otherwise the greedy packing loop followed by joining with newlines. -/
def wrapSegment (segment : List Char) (maxLen : Nat) : List Char :=
  let tokens := tokenize segment
  if widthSum tokens ≤ maxLen then segment
  else
    let st := tokens.foldl (wrapStep maxLen) ([], [], 0)
    let lines := if st.2.1 ≠ [] then st.1 ++ [st.2.1] else st.1
    List.intercalate ['\n'] lines

/-- `wrap_ja_text` of the source: wrap each explicit-newline segment
independently, rejoin with the original breaks, and report whether anything
changed. -/
def wrapJaText (text : List Char) (maxLen : Nat) : List Char × Bool :=
  if text = [] then (text, false)
  else
    let wrapped := List.intercalate ['\n'] ((splitNl text).map (fun p => wrapSegment p maxLen))
    (wrapped, decide (wrapped ≠ text))

/-- Token-level mirror of `wrapStep`: lines and the current line are kept as
token lists; the emptiness test is on the concatenated text, exactly as the
source tests the accumulated string. -/
def packStep (maxLen : Nat) (st : List (List Tok) × List Tok × Nat) (tok : Tok) :
    List (List Tok) × List Tok × Nat :=
  if 0 < tok.2 ∧ maxLen < st.2.2 + tok.2 ∧ textOf st.2.1 ≠ [] then
    (st.1 ++ [st.2.1], [tok], tok.2)
  else
    (st.1, st.2.1 ++ [tok], st.2.2 + tok.2)

/-- The packed lines of the greedy loop, as token lists. -/
def packLines (maxLen : Nat) (toks : List Tok) : List (List Tok) :=
  let st := toks.foldl (packStep maxLen) ([], [], 0)
  if textOf st.2.1 ≠ [] then st.1 ++ [st.2.1] else st.1

/-- Line packing exactly as the specification words it: a break is inserted
before a positive-width token precisely when adding its width to the current
accumulated width would exceed the maximum and the current line is
non-empty; zero-width tokens are always appended to the current line. -/
def packByRule (maxLen : Nat) (cur : List Tok) (curW : Nat) : List Tok → List (List Tok)
  | [] => if cur = [] then [] else [cur]
  | t :: ts =>
    if 0 < t.2 ∧ maxLen < curW + t.2 ∧ cur ≠ [] then
      cur :: packByRule maxLen [t] t.2 ts
    else
      packByRule maxLen (cur ++ [t]) (curW + t.2) ts

/-- Python `str.strip`: remove leading and trailing whitespace. -/
def strip (s : List Char) : List Char :=
  ((s.dropWhile Char.isWhitespace).reverse.dropWhile Char.isWhitespace).reverse

/-- `normalize_text` of merge_translated.py. -/
def normalizeText : Option (List Char) → List Char
  | none => []
  | some s => strip s

/-- A base CSV row as seen by `merge_file`: the KEY cell, the target-column
cell, and all remaining cells, which the merge never touches. -/
structure MergeRow where
  key : Option (List Char)
  target : Option (List Char)
  other : List (List Char × List Char)
deriving DecidableEq

/-- One row of the translated-file index build: record the row when its key
and its stripped value are non-blank, the raw value overwriting any earlier
binding of the key (Python dict assignment). -/
def buildIndexStep (idx : List Char → Option (List Char))
    (row : Option (List Char) × Option (List Char)) : List Char → Option (List Char) :=
  let key := normalizeText row.1
  let value := row.2.getD []
  if key ≠ [] ∧ strip value ≠ [] then
    fun k => if k = key then some value else idx k
  else idx

/-- The translated-file index of `merge_file`: later rows overwrite earlier
ones, and only rows with a non-blank key and a value that is non-blank
after stripping are recorded; the raw, unstripped value is stored. -/
def buildIndex (rows : List (Option (List Char) × Option (List Char))) :
    List Char → Option (List Char) :=
  rows.foldl buildIndexStep (fun _ => none)

/-- The row loop of `merge_file`: fill a blank target cell from the index,
count merged and skipped rows, write every row through in order. -/
def mergeRows (idx : List Char → Option (List Char)) : List MergeRow → List MergeRow × Nat × Nat
  | [] => ([], 0, 0)
  | row :: rest =>
    let key := normalizeText row.key
    let current := normalizeText row.target
    let step : MergeRow × Nat × Nat :=
      match idx key with
      | some v => if current = [] then (⟨row.key, some v, row.other⟩, 1, 0) else (row, 0, 1)
      | none => (row, 0, 0)
    let rest' := mergeRows idx rest
    (step.1 :: rest'.1, step.2.1 + rest'.2.1, step.2.2 + rest'.2.2)

/-- `merge_file` restricted to its row-processing core; the CSV reading,
header checks and early returns are I/O glue around this loop. -/
def mergeFile (translated : List (Option (List Char) × Option (List Char)))
    (base : List MergeRow) : List MergeRow × Nat × Nat :=
  mergeRows (buildIndex translated) base

/-- A packed line is within budget, or it is a single over-long token followed
only by zero-width tokens. -/
def lineOK (maxLen : Nat) (L : List Tok) : Prop :=
  widthSum L ≤ maxLen ∨ ∃ t ts, L = t :: ts ∧ maxLen < t.2 ∧ ∀ u ∈ ts, u.2 = 0

/-- The first token of the line exists and has positive width. -/
def startPos (L : List Tok) : Prop := ∃ t ts, L = t :: ts ∧ 0 < t.2

/-! ### Basic helpers -/

theorem textOf_nil : textOf [] = [] := rfl

theorem textOf_cons (t : Tok) (ts : List Tok) : textOf (t :: ts) = t.1 ++ textOf ts := rfl

theorem textOf_append (a b : List Tok) : textOf (a ++ b) = textOf a ++ textOf b := by
  simp [textOf]

theorem widthSum_cons (t : Tok) (ts : List Tok) : widthSum (t :: ts) = t.2 + widthSum ts := by
  simp [widthSum]

theorem widthSum_append (a b : List Tok) : widthSum (a ++ b) = widthSum a + widthSum b := by
  simp [widthSum]

theorem dropWhile_len_le (p : Char → Bool) : ∀ l : List Char, (l.dropWhile p).length ≤ l.length := by
  intro l
  induction l with
  | nil => simp
  | cons c rest ih =>
    rw [List.dropWhile_cons]
    by_cases hc : p c = true
    · rw [if_pos hc]; exact Nat.le_succ_of_le ih
    · rw [if_neg hc]

theorem takeWhile_run_append (p : Char → Bool) (run s : List Char)
    (hrun : ∀ c ∈ run, p c = true)
    (hs : s = [] ∨ ∃ d s', s = d :: s' ∧ p d = false) :
    (run ++ s).takeWhile p = run ∧ (run ++ s).dropWhile p = s := by
  induction run with
  | nil =>
    rcases hs with rfl | ⟨d, s', rfl, hd⟩
    · exact ⟨rfl, rfl⟩
    · simp [List.takeWhile_cons, List.dropWhile_cons, hd]
  | cons c run ih =>
    have hc : p c = true := hrun c (List.mem_cons_self c run)
    have ih' := ih (fun x hx => hrun x (List.mem_cons_of_mem _ hx))
    simp [List.takeWhile_cons, List.dropWhile_cons, hc, ih'.1, ih'.2]

theorem dropWhile_head_false (p : Char → Bool) :
    ∀ (l : List Char) d s', l.dropWhile p = d :: s' → p d = false := by
  intro l
  induction l with
  | nil => intro d s' h; simp [List.dropWhile] at h
  | cons c rest ih =>
    intro d s' h
    by_cases hc : p c = true
    · rw [List.dropWhile_cons, if_pos hc] at h; exact ih d s' h
    · rw [List.dropWhile_cons, if_neg hc] at h
      cases h
      exact Bool.not_eq_true _ ▸ hc

theorem close_run_unique {c : Char} :
    ∀ {q1 : List Char} {q2 a b : List Char}, (∀ x ∈ q1, x ≠ c) → (∀ x ∈ q2, x ≠ c) →
      q1 ++ c :: a = q2 ++ c :: b → q1 = q2 ∧ a = b := by
  intro q1
  induction q1 with
  | nil =>
    intro q2 a b _ h2 heq
    cases q2 with
    | nil =>
      simp only [List.nil_append] at heq
      injection heq with _ h4
      exact ⟨rfl, h4⟩
    | cons d q2' =>
      simp only [List.nil_append, List.cons_append] at heq
      injection heq with h3 _
      exact absurd h3.symm (h2 d (List.mem_cons_self d q2'))
  | cons d q1' ih =>
    intro q2 a b h1 h2 heq
    cases q2 with
    | nil =>
      simp only [List.cons_append, List.nil_append] at heq
      injection heq with h3 _
      exact absurd h3 (h1 d (List.mem_cons_self d q1'))
    | cons e q2' =>
      simp only [List.cons_append] at heq
      injection heq with h3 h4
      obtain ⟨h5, h6⟩ := ih (fun x hx => h1 x (List.mem_cons_of_mem _ hx))
        (fun x hx => h2 x (List.mem_cons_of_mem _ hx)) h4
      exact ⟨by rw [h3, h5], h6⟩

/-! ### matchDelim theory -/

theorem matchDelim_shape {opening : List Char} {cl : Char → Bool} {close : Char}
    {cs t r : List Char} (h : matchDelim opening cl close cs = some (t, r)) :
    ∃ run, t = opening ++ run ++ [close] ∧ run ≠ [] ∧ (∀ c ∈ run, cl c = true) ∧
      cs = opening ++ run ++ close :: r := by
  simp only [matchDelim] at h
  by_cases hp : cs.take opening.length = opening
  · rw [if_pos hp] at h
    split at h
    next c r' hdw =>
      split at h
      next hc =>
        injection h with h'
        injection h' with h1 h2
        refine ⟨(cs.drop opening.length).takeWhile cl, h1.symm, hc.2, ?_, ?_⟩
        · intro x hx; exact List.mem_takeWhile_imp hx
        · have hcs := List.take_append_drop opening.length cs
          rw [hp] at hcs
          have hparts := List.takeWhile_append_dropWhile cl (cs.drop opening.length)
          rw [hdw] at hparts
          calc cs = opening ++ cs.drop opening.length := hcs.symm
            _ = opening ++ ((cs.drop opening.length).takeWhile cl ++ c :: r') := by rw [hparts]
            _ = opening ++ (cs.drop opening.length).takeWhile cl ++ close :: r := by
                rw [hc.1, h2, ← List.append_assoc]
      next hc => exact absurd h (by simp)
    next hdw => exact absurd h (by simp)
  · rw [if_neg hp] at h
    exact absurd h (by simp)

theorem matchDelim_build {opening : List Char} {cl : Char → Bool} {close : Char}
    {run r : List Char} (hcl : cl close = false) (hrun : ∀ c ∈ run, cl c = true)
    (hne : run ≠ []) :
    matchDelim opening cl close (opening ++ run ++ close :: r) =
      some (opening ++ run ++ [close], r) := by
  obtain ⟨htw, hdw⟩ := takeWhile_run_append cl run (close :: r) hrun (Or.inr ⟨close, r, rfl, hcl⟩)
  simp only [matchDelim]
  rw [List.append_assoc, if_pos (List.take_left opening (run ++ close :: r))]
  simp only [List.drop_left, htw, hdw]
  simp [hne, List.append_assoc]

theorem matchDelim_extend {opening : List Char} {cl : Char → Bool} {close : Char}
    {u t r : List Char} (hcl : cl close = false)
    (h : matchDelim opening cl close u = some (t, r)) (v : List Char) :
    matchDelim opening cl close (u ++ v) = some (t, r ++ v) := by
  obtain ⟨run, rfl, hne, hrun, rfl⟩ := matchDelim_shape h
  have hb := @matchDelim_build opening cl close run (r ++ v) hcl hrun hne
  have harr : (opening ++ run ++ close :: r) ++ v = opening ++ run ++ close :: (r ++ v) := by
    simp [List.append_assoc]
  rw [harr, hb]

theorem matchDelim_trunc {opening : List Char} {cl : Char → Bool} {close : Char}
    {cs t r1 r2 : List Char} (hcl : cl close = false)
    (h : matchDelim opening cl close cs = some (t, r1 ++ r2)) :
    matchDelim opening cl close (t ++ r1) = some (t, r1) := by
  obtain ⟨run, rfl, hne, hrun, _⟩ := matchDelim_shape h
  have hb := @matchDelim_build opening cl close run r1 hcl hrun hne
  have harr : (opening ++ run ++ [close]) ++ r1 = opening ++ run ++ close :: r1 := by
    simp [List.append_assoc]
  rw [harr, hb]

theorem matchDelim_none_head {cl : Char → Bool} {close : Char} {a d : Char}
    {o' cs' : List Char} (hne : a ≠ d) :
    matchDelim (d :: o') cl close (a :: cs') = none := by
  unfold matchDelim
  rw [if_neg]
  intro h
  rw [List.length_cons, List.take_succ_cons] at h
  injection h with h1 _
  exact hne h1

/-! ### Individual matcher lemmas -/

theorem matchImg_extend {u t r : List Char} (h : matchImg u = some (t, r)) (v : List Char) :
    matchImg (u ++ v) = some (t, r ++ v) := matchDelim_extend (by decide) h v

theorem matchTagSlash_extend {u t r : List Char} (h : matchTagSlash u = some (t, r))
    (v : List Char) : matchTagSlash (u ++ v) = some (t, r ++ v) :=
  matchDelim_extend (by decide) h v

theorem matchTagPlain_extend {u t r : List Char} (h : matchTagPlain u = some (t, r))
    (v : List Char) : matchTagPlain (u ++ v) = some (t, r ++ v) :=
  matchDelim_extend (by decide) h v

theorem matchTemplate_extend {u t r : List Char} (h : matchTemplate u = some (t, r))
    (v : List Char) : matchTemplate (u ++ v) = some (t, r ++ v) :=
  matchDelim_extend (by decide) h v

theorem matchEntity_extend {u t r : List Char} (h : matchEntity u = some (t, r))
    (v : List Char) : matchEntity (u ++ v) = some (t, r ++ v) :=
  matchDelim_extend (by decide) h v

theorem notBracket_ne {c : Char} (h : notBracket c = true) : c ≠ '[' ∧ c ≠ ']' := by
  refine ⟨?_, ?_⟩ <;> rintro rfl <;> exact absurd h (by decide)

theorem wordChar_ne {c : Char} (h : isWordChar c = true) : c ≠ '[' ∧ c ≠ ']' ∧ c ≠ ';' := by
  refine ⟨?_, ?_, ?_⟩ <;> rintro rfl <;> exact absurd h (by decide)

theorem matchTag_shape {cs t r : List Char} (h : matchTag cs = some (t, r)) :
    ∃ q, t = '[' :: q ++ [']'] ∧ q ≠ [] ∧ (∀ c ∈ q, notBracket c = true) ∧
      cs = '[' :: q ++ ']' :: r := by
  unfold matchTag at h
  split at h
  next res hs =>
    injection h with h'
    subst h'
    obtain ⟨run, ht, hne, hrun, hcs⟩ := matchDelim_shape hs
    refine ⟨'/' :: run, by simpa using ht, by simp, ?_, by simpa using hcs⟩
    intro c hc
    rcases List.mem_cons.mp hc with rfl | hc
    · decide
    · exact hrun c hc
  next hs =>
    obtain ⟨run, ht, hne, hrun, hcs⟩ := matchDelim_shape h
    exact ⟨run, by simpa using ht, hne, hrun, by simpa using hcs⟩

theorem tagSlash_none_extend {u v t r : List Char}
    (hplain : matchTagPlain u = some (t, r)) (hslash : matchTagSlash u = none) :
    matchTagSlash (u ++ v) = none := by
  rcases hsv : matchTagSlash (u ++ v) with _ | ⟨t2, r2⟩
  · rfl
  · exfalso
    obtain ⟨run, _, _, hrun, hcs⟩ := matchDelim_shape hplain
    obtain ⟨run2, _, h2ne, h2run, h2cs⟩ := matchDelim_shape hsv
    rw [hcs] at h2cs
    simp only [List.cons_append, List.nil_append, List.append_assoc] at h2cs
    injection h2cs with _ h2cs'
    have huniq := @close_run_unique ']' run ('/' :: run2) _ _
      (fun x hx => (notBracket_ne (hrun x hx)).2)
      (fun x hx => by
        rcases List.mem_cons.mp hx with rfl | hx
        · decide
        · exact (notBracket_ne (h2run x hx)).2)
      h2cs'
    have hu : u = ['[', '/'] ++ run2 ++ ']' :: r := by
      rw [hcs, huniq.1]
      simp [List.append_assoc]
    unfold matchTagSlash at hslash
    rw [hu, matchDelim_build (by decide) h2run h2ne] at hslash
    exact absurd hslash (by simp)

theorem img_none_extend {u v t r : List Char}
    (htag : matchTag u = some (t, r)) (himg : matchImg u = none) :
    matchImg (u ++ v) = none := by
  rcases hiv : matchImg (u ++ v) with _ | ⟨t2, r2⟩
  · rfl
  · exfalso
    obtain ⟨q, _, _, hqnb, hqcs⟩ := matchTag_shape htag
    obtain ⟨w, _, hwne, hww, hwcs⟩ := matchDelim_shape hiv
    rw [hqcs] at hwcs
    simp only [List.cons_append, List.nil_append, List.append_assoc] at hwcs
    injection hwcs with _ hwcs'
    have huniq := @close_run_unique ']' q ('i' :: 'm' :: 'g' :: ':' :: w) _ _
      (fun x hx => (notBracket_ne (hqnb x hx)).2)
      (fun x hx => by
        rcases List.mem_cons.mp hx with rfl | hx
        · decide
        rcases List.mem_cons.mp hx with rfl | hx
        · decide
        rcases List.mem_cons.mp hx with rfl | hx
        · decide
        rcases List.mem_cons.mp hx with rfl | hx
        · decide
        · exact (wordChar_ne (hww x hx)).2.1)
      hwcs'
    have hu : u = ['[', 'i', 'm', 'g', ':'] ++ w ++ ']' :: r := by
      rw [hqcs, huniq.1]
      simp [List.append_assoc]
    unfold matchImg at himg
    rw [hu, matchDelim_build (by decide) hww hwne] at himg
    exact absurd himg (by simp)

theorem matchTag_extend {u t r : List Char} (h : matchTag u = some (t, r)) (v : List Char) :
    matchTag (u ++ v) = some (t, r ++ v) := by
  unfold matchTag at h ⊢
  split at h
  next res hs =>
    injection h with h'
    subst h'
    rw [matchTagSlash_extend hs v]
  next hs =>
    rw [tagSlash_none_extend h hs]
    exact matchTagPlain_extend h v

theorem matchImg_trunc {cs t r1 r2 : List Char} (h : matchImg cs = some (t, r1 ++ r2)) :
    matchImg (t ++ r1) = some (t, r1) := matchDelim_trunc (by decide) h

theorem matchTagSlash_trunc {cs t r1 r2 : List Char} (h : matchTagSlash cs = some (t, r1 ++ r2)) :
    matchTagSlash (t ++ r1) = some (t, r1) := matchDelim_trunc (by decide) h

theorem matchTagPlain_trunc {cs t r1 r2 : List Char} (h : matchTagPlain cs = some (t, r1 ++ r2)) :
    matchTagPlain (t ++ r1) = some (t, r1) := matchDelim_trunc (by decide) h

theorem matchTemplate_trunc {cs t r1 r2 : List Char} (h : matchTemplate cs = some (t, r1 ++ r2)) :
    matchTemplate (t ++ r1) = some (t, r1) := matchDelim_trunc (by decide) h

theorem matchEntity_trunc {cs t r1 r2 : List Char} (h : matchEntity cs = some (t, r1 ++ r2)) :
    matchEntity (t ++ r1) = some (t, r1) := matchDelim_trunc (by decide) h

theorem matchImg_none_of_head {cs : List Char} (h : cs.head? ≠ some '[') :
    matchImg cs = none := by
  cases cs with
  | nil => rfl
  | cons a cs' =>
    refine matchDelim_none_head ?_
    intro hq; exact h (by rw [hq]; rfl)

theorem matchTagSlash_none_of_head {cs : List Char} (h : cs.head? ≠ some '[') :
    matchTagSlash cs = none := by
  cases cs with
  | nil => rfl
  | cons a cs' =>
    refine matchDelim_none_head ?_
    intro hq; exact h (by rw [hq]; rfl)

theorem matchTagPlain_none_of_head {cs : List Char} (h : cs.head? ≠ some '[') :
    matchTagPlain cs = none := by
  cases cs with
  | nil => rfl
  | cons a cs' =>
    refine matchDelim_none_head ?_
    intro hq; exact h (by rw [hq]; rfl)

theorem matchTag_none_of_head {cs : List Char} (h : cs.head? ≠ some '[') :
    matchTag cs = none := by
  unfold matchTag
  simp only [matchTagSlash_none_of_head h]
  exact matchTagPlain_none_of_head h

theorem matchTemplate_none_of_head {cs : List Char} (h : cs.head? ≠ some '{') :
    matchTemplate cs = none := by
  cases cs with
  | nil => rfl
  | cons a cs' =>
    refine matchDelim_none_head ?_
    intro hq; exact h (by rw [hq]; rfl)

theorem matchEntity_none_of_head {cs : List Char} (h : cs.head? ≠ some '&') :
    matchEntity cs = none := by
  cases cs with
  | nil => rfl
  | cons a cs' =>
    refine matchDelim_none_head ?_
    intro hq; exact h (by rw [hq]; rfl)

theorem matchTemplate_shape {cs t r : List Char} (h : matchTemplate cs = some (t, r)) :
    ∃ q, t = '{' :: q ++ ['}'] ∧ q ≠ [] ∧ (∀ c ∈ q, notBrace c = true) ∧
      cs = '{' :: q ++ '}' :: r := by
  obtain ⟨run, ht, hne, hrun, hcs⟩ := matchDelim_shape h
  exact ⟨run, by simpa using ht, hne, hrun, by simpa using hcs⟩

theorem matchEntity_shape {cs t r : List Char} (h : matchEntity cs = some (t, r)) :
    ∃ q, t = '&' :: q ++ [';'] ∧ q ≠ [] ∧ (∀ c ∈ q, isWordChar c = true) ∧
      cs = '&' :: q ++ ';' :: r := by
  obtain ⟨run, ht, hne, hrun, hcs⟩ := matchDelim_shape h
  exact ⟨run, by simpa using ht, hne, hrun, by simpa using hcs⟩

theorem matchTag_trunc {cs t r1 r2 : List Char} (h : matchTag cs = some (t, r1 ++ r2)) :
    matchTag (t ++ r1) = some (t, r1) := by
  unfold matchTag at h ⊢
  split at h
  next res hs =>
    injection h with h'
    subst h'
    simp only [matchTagSlash_trunc hs]
  next hs =>
    have hcs : cs = (t ++ r1) ++ r2 := by
      obtain ⟨run, ht, _, _, hcs⟩ := matchDelim_shape h
      rw [hcs, ht]
      simp [List.append_assoc]
    have hnone : matchTagSlash (t ++ r1) = none := by
      rcases hsv : matchTagSlash (t ++ r1) with _ | ⟨t2, rr2⟩
      · rfl
      · exfalso
        have hext := matchTagSlash_extend hsv r2
        rw [← hcs] at hext
        rw [hext] at hs
        exact absurd hs (by simp)
    simp only [hnone]
    exact matchTagPlain_trunc h

/-! ### Combined scanner lemmas -/

theorem matchCombined_decomp {cs : List Char} {t : List Char} {w : Nat} {r : List Char}
    (h : matchCombined cs = some ((t, w), r)) : cs = t ++ r ∧ t ≠ [] := by
  unfold matchCombined at h
  split at h
  next s rr himg =>
    injection h with h'
    injection h' with h1 h2
    injection h1 with h1a _
    subst h1a; subst h2
    obtain ⟨q, ht, _, _, hcs⟩ := matchDelim_shape himg
    subst ht
    exact ⟨by rw [hcs]; simp [List.append_assoc], by simp⟩
  next himg =>
  split at h
  next s rr htag =>
    injection h with h'
    injection h' with h1 h2
    injection h1 with h1a _
    subst h1a; subst h2
    obtain ⟨q, ht, _, _, hcs⟩ := matchTag_shape htag
    subst ht
    exact ⟨by rw [hcs]; simp [List.append_assoc], by simp⟩
  next htag =>
  split at h
  next s rr htem =>
    injection h with h'
    injection h' with h1 h2
    injection h1 with h1a _
    subst h1a; subst h2
    obtain ⟨q, ht, _, _, hcs⟩ := matchTemplate_shape htem
    subst ht
    exact ⟨by rw [hcs]; simp [List.append_assoc], by simp⟩
  next htem =>
  split at h
  next s rr hent =>
    injection h with h'
    injection h' with h1 h2
    injection h1 with h1a _
    subst h1a; subst h2
    obtain ⟨q, ht, _, _, hcs⟩ := matchEntity_shape hent
    subst ht
    exact ⟨by rw [hcs]; simp [List.append_assoc], by simp⟩
  next hent => exact absurd h (by simp)

theorem matchCombined_extend {u : List Char} {t : List Char} {w : Nat} {r : List Char}
    (h : matchCombined u = some ((t, w), r)) (v : List Char) :
    matchCombined (u ++ v) = some ((t, w), r ++ v) := by
  unfold matchCombined at h ⊢
  split at h
  next s rr himg =>
    injection h with h'
    injection h' with h1 h2
    injection h1 with h1a h1b
    subst h1a; subst h1b; subst h2
    simp only [matchImg_extend himg v]
  next himg =>
  split at h
  next s rr htag =>
    injection h with h'
    injection h' with h1 h2
    injection h1 with h1a h1b
    subst h1a; subst h1b; subst h2
    simp only [img_none_extend htag himg, matchTag_extend htag v]
  next htag =>
  split at h
  next s rr htem =>
    injection h with h'
    injection h' with h1 h2
    injection h1 with h1a h1b
    subst h1a; subst h1b; subst h2
    obtain ⟨q, _, _, _, hcs⟩ := matchTemplate_shape htem
    have hhd : (u ++ v).head? = some '{' := by rw [hcs]; rfl
    simp only [matchImg_none_of_head (by rw [hhd]; decide),
      matchTag_none_of_head (by rw [hhd]; decide), matchTemplate_extend htem v]
  next htem =>
  split at h
  next s rr hent =>
    injection h with h'
    injection h' with h1 h2
    injection h1 with h1a h1b
    subst h1a; subst h1b; subst h2
    obtain ⟨q, _, _, _, hcs⟩ := matchEntity_shape hent
    have hhd : (u ++ v).head? = some '&' := by rw [hcs]; rfl
    simp only [matchImg_none_of_head (by rw [hhd]; decide),
      matchTag_none_of_head (by rw [hhd]; decide),
      matchTemplate_none_of_head (by rw [hhd]; decide), matchEntity_extend hent v]
  next hent => exact absurd h (by simp)

theorem matchCombined_trunc {cs : List Char} {t : List Char} {w : Nat} {r1 r2 : List Char}
    (h : matchCombined cs = some ((t, w), r1 ++ r2)) :
    matchCombined (t ++ r1) = some ((t, w), r1) := by
  have hcs : cs = (t ++ r1) ++ r2 := by
    rw [(matchCombined_decomp h).1, List.append_assoc]
  unfold matchCombined at h ⊢
  split at h
  next s rr himg =>
    injection h with h'
    injection h' with h1 h2
    injection h1 with h1a h1b
    subst h1a; subst h1b; subst h2
    simp only [matchImg_trunc himg]
  next himg =>
  split at h
  next s rr htag =>
    injection h with h'
    injection h' with h1 h2
    injection h1 with h1a h1b
    subst h1a; subst h1b; subst h2
    have himg' : matchImg (s ++ r1) = none := by
      rcases hx : matchImg (s ++ r1) with _ | ⟨t2, rr2⟩
      · rfl
      · exfalso
        have hext := matchImg_extend hx r2
        rw [← hcs] at hext
        rw [hext] at himg
        exact absurd himg (by simp)
    simp only [himg', matchTag_trunc htag]
  next htag =>
  split at h
  next s rr htem =>
    injection h with h'
    injection h' with h1 h2
    injection h1 with h1a h1b
    subst h1a; subst h1b; subst h2
    have himg' : matchImg (s ++ r1) = none := by
      rcases hx : matchImg (s ++ r1) with _ | ⟨t2, rr2⟩
      · rfl
      · exfalso
        have hext := matchImg_extend hx r2
        rw [← hcs] at hext
        rw [hext] at himg
        exact absurd himg (by simp)
    have htag' : matchTag (s ++ r1) = none := by
      rcases hx : matchTag (s ++ r1) with _ | ⟨t2, rr2⟩
      · rfl
      · exfalso
        have hext := matchTag_extend hx r2
        rw [← hcs] at hext
        rw [hext] at htag
        exact absurd htag (by simp)
    simp only [himg', htag', matchTemplate_trunc htem]
  next htem =>
  split at h
  next s rr hent =>
    injection h with h'
    injection h' with h1 h2
    injection h1 with h1a h1b
    subst h1a; subst h1b; subst h2
    have himg' : matchImg (s ++ r1) = none := by
      rcases hx : matchImg (s ++ r1) with _ | ⟨t2, rr2⟩
      · rfl
      · exfalso
        have hext := matchImg_extend hx r2
        rw [← hcs] at hext
        rw [hext] at himg
        exact absurd himg (by simp)
    have htag' : matchTag (s ++ r1) = none := by
      rcases hx : matchTag (s ++ r1) with _ | ⟨t2, rr2⟩
      · rfl
      · exfalso
        have hext := matchTag_extend hx r2
        rw [← hcs] at hext
        rw [hext] at htag
        exact absurd htag (by simp)
    have htem' : matchTemplate (s ++ r1) = none := by
      rcases hx : matchTemplate (s ++ r1) with _ | ⟨t2, rr2⟩
      · rfl
      · exfalso
        have hext := matchTemplate_extend hx r2
        rw [← hcs] at hext
        rw [hext] at htem
        exact absurd htem (by simp)
    simp only [himg', htag', htem', matchEntity_trunc hent]
  next hent => exact absurd h (by simp)

/-- Failure of the combined scanner is preserved when the input is cut short:
a match in the shorter input would extend to one in the longer input. -/
theorem matchCombined_none_of_append {u v : List Char}
    (h : matchCombined (u ++ v) = none) : matchCombined u = none := by
  rcases hx : matchCombined u with _ | ⟨⟨t, w⟩, r⟩
  · rfl
  · exfalso
    rw [matchCombined_extend hx v] at h
    exact absurd h (by simp)

/-! ### findNext characterization -/

theorem matchCombined_nil : matchCombined [] = none := rfl

theorem findNext_none {cs p : List Char} (h : findNext cs = (p, none)) : p = cs := by
  induction cs generalizing p with
  | nil =>
    injection h with h1 _
    exact h1.symm
  | cons c rest ih =>
    unfold findNext at h
    split at h
    next tok r hm =>
      injection h with _ h2
      exact absurd h2.symm (by simp)
    next hm =>
      split at h
      next p' m hfr =>
        injection h with h1 h2
        subst h2
        rw [← h1, ih hfr]

theorem findNext_no_match {cs p : List Char} {m : Option (Tok × List Char)}
    (h : findNext cs = (p, m)) : ∀ k, k < p.length → matchCombined (cs.drop k) = none := by
  induction cs generalizing p m with
  | nil =>
    injection h with h1 _
    subst h1
    intro k hk
    exact absurd hk (by simp)
  | cons c rest ih =>
    unfold findNext at h
    split at h
    next tok r hm =>
      injection h with h1 _
      subst h1
      intro k hk
      exact absurd hk (by simp)
    next hm =>
      split at h
      next p' m' hfr =>
        injection h with h1 h2
        subst h1; subst h2
        intro k hk
        cases k with
        | zero => exact hm
        | succ k =>
          rw [List.drop_succ_cons]
          exact ih hfr k (by simpa using hk)

theorem findNext_match_at {cs p : List Char} {tok : Tok} {r : List Char}
    (h : findNext cs = (p, some (tok, r))) :
    matchCombined (cs.drop p.length) = some (tok, r) := by
  induction cs generalizing p with
  | nil =>
    injection h with _ h2
    exact absurd h2.symm (by simp)
  | cons c rest ih =>
    unfold findNext at h
    split at h
    next tok' r' hm =>
      injection h with h1 h2
      injection h2 with h2'
      injection h2' with h2a h2b
      rw [h2a, h2b] at hm
      rw [← h1]
      exact hm
    next hm =>
      split at h
      next p' m' hfr =>
        injection h with h1 h2
        subst h2
        rw [← h1, List.length_cons, List.drop_succ_cons]
        exact ih hfr

theorem findNext_decomp {cs p : List Char} {tok : Tok} {r : List Char}
    (h : findNext cs = (p, some (tok, r))) : cs = p ++ tok.1 ++ r ∧ tok.1 ≠ [] := by
  induction cs generalizing p with
  | nil =>
    injection h with _ h2
    exact absurd h2.symm (by simp)
  | cons c rest ih =>
    unfold findNext at h
    split at h
    next tok' r' hm =>
      injection h with h1 h2
      injection h2 with h2'
      injection h2' with h2a h2b
      rw [h2a, h2b] at hm
      obtain ⟨t, w⟩ := tok
      have hd := matchCombined_decomp hm
      rw [← h1]
      exact ⟨by simpa using hd.1, hd.2⟩
    next hm =>
      split at h
      next p' m' hfr =>
        injection h with h1 h2
        subst h2
        obtain ⟨hd1, hd2⟩ := ih hfr
        rw [← h1]
        exact ⟨by rw [List.cons_append, List.cons_append, ← hd1], hd2⟩

theorem findNext_build : ∀ {p rest : List Char} {tok : Tok} {r : List Char},
    (∀ k, k < p.length → matchCombined ((p ++ rest).drop k) = none) →
    matchCombined rest = some (tok, r) → findNext (p ++ rest) = (p, some (tok, r)) := by
  intro p
  induction p with
  | nil =>
    intro rest tok r _ hm
    cases rest with
    | nil => exact absurd hm (by rw [matchCombined_nil]; simp)
    | cons c rest' =>
      unfold findNext
      simp only [List.nil_append] at hm ⊢
      rw [hm]
  | cons a p' ih =>
    intro rest tok r hnone hm
    have h0 : matchCombined (a :: (p' ++ rest)) = none := by
      have := hnone 0 (by simp)
      simpa using this
    unfold findNext
    simp only [List.cons_append, h0]
    have hrec := ih (fun k hk => by
      have := hnone (k + 1) (by simpa using hk)
      simpa using this) hm
    rw [hrec]

theorem findNext_build_none : ∀ {cs : List Char},
    (∀ k, k < cs.length → matchCombined (cs.drop k) = none) → findNext cs = (cs, none) := by
  intro cs
  induction cs with
  | nil => intro _; rfl
  | cons c rest ih =>
    intro hnone
    have h0 : matchCombined (c :: rest) = none := by
      have := hnone 0 (by simp)
      simpa using this
    unfold findNext
    simp only [h0]
    rw [ih (fun k hk => by
      have := hnone (k + 1) (by simpa using hk)
      simpa using this)]

/-! ### Fuel elimination -/

theorem tokenizePlainF_mono : ∀ (f g : Nat) (cs : List Char), cs.length ≤ f → cs.length ≤ g →
    tokenizePlainF f cs = tokenizePlainF g cs := by
  intro f
  induction f with
  | zero =>
    intro g cs hf _
    have hcs : cs = [] := List.length_eq_zero.mp (Nat.le_zero.mp hf)
    subst hcs
    cases g <;> rfl
  | succ f ih =>
    intro g cs hf hg
    cases g with
    | zero =>
      have hcs : cs = [] := List.length_eq_zero.mp (Nat.le_zero.mp hg)
      subst hcs
      rfl
    | succ g =>
      cases cs with
      | nil => rfl
      | cons c rest =>
        have hf' : rest.length ≤ f := by simp at hf; omega
        have hg' : rest.length ≤ g := by simp at hg; omega
        simp only [tokenizePlainF]
        by_cases hc : isAsciiAlnum c = true
        · rw [if_pos hc, if_pos hc,
            ih g _ (le_trans (dropWhile_len_le _ rest) hf') (le_trans (dropWhile_len_le _ rest) hg')]
        · rw [if_neg hc, if_neg hc, ih g _ hf' hg']

theorem tokenizePlain_eq_cons (c : Char) (rest : List Char) :
    tokenizePlain (c :: rest) =
      if isAsciiAlnum c then
        (c :: rest.takeWhile isAsciiAlnum, (c :: rest.takeWhile isAsciiAlnum).length) ::
          tokenizePlain (rest.dropWhile isAsciiAlnum)
      else ([c], 1) :: tokenizePlain rest := by
  show tokenizePlainF (rest.length + 1) (c :: rest) = _
  simp only [tokenizePlainF]
  by_cases hc : isAsciiAlnum c = true
  · rw [if_pos hc, if_pos hc,
      tokenizePlainF_mono rest.length (rest.dropWhile isAsciiAlnum).length _
        (dropWhile_len_le _ _) le_rfl]
    rfl
  · rw [if_neg hc, if_neg hc]
    rfl

theorem tokenizeF_mono : ∀ (f g : Nat) (cs : List Char), cs.length ≤ f → cs.length ≤ g →
    tokenizeF f cs = tokenizeF g cs := by
  intro f
  induction f with
  | zero =>
    intro g cs hf _
    have hcs : cs = [] := List.length_eq_zero.mp (Nat.le_zero.mp hf)
    subst hcs
    cases g <;> rfl
  | succ f ih =>
    intro g cs hf hg
    cases g with
    | zero =>
      have hcs : cs = [] := List.length_eq_zero.mp (Nat.le_zero.mp hg)
      subst hcs
      rfl
    | succ g =>
      simp only [tokenizeF]
      rcases hfn : findNext cs with ⟨pre, _ | ⟨tok, r⟩⟩
      · simp only [hfn]
      · simp only [hfn]
        obtain ⟨hd1, hd2⟩ := findNext_decomp hfn
        have hlen := congrArg List.length hd1
        simp only [List.length_append] at hlen
        have hpos : 0 < tok.1.length := List.length_pos.mpr hd2
        rw [ih g r (by omega) (by omega)]

theorem tokenize_eq (cs : List Char) :
    tokenize cs = (match findNext cs with
      | (pre, none) => tokenizePlain pre
      | (pre, some (tok, r)) => tokenizePlain pre ++ tok :: tokenize r) := by
  cases cs with
  | nil => rfl
  | cons c rest =>
    show tokenizeF (rest.length + 1) (c :: rest) = _
    simp only [tokenizeF]
    rcases hfn : findNext (c :: rest) with ⟨pre, _ | ⟨tok, r⟩⟩
    · simp only [hfn]
    · simp only [hfn]
      obtain ⟨hd1, hd2⟩ := findNext_decomp hfn
      have hlen := congrArg List.length hd1
      simp only [List.length_append, List.length_cons] at hlen
      have hpos : 0 < tok.1.length := List.length_pos.mpr hd2
      rw [tokenizeF_mono rest.length r.length r (by omega) le_rfl]
      rfl

/-! ### Plain tokenizer lemmas -/

theorem textOf_pair (s : List Char) (w : Nat) (ts : List Tok) :
    textOf ((s, w) :: ts) = s ++ textOf ts := rfl

theorem tokenizePlain_textOfN : ∀ (n : Nat) (cs : List Char), cs.length ≤ n →
    textOf (tokenizePlain cs) = cs := by
  intro n
  induction n with
  | zero =>
    intro cs h
    have hcs : cs = [] := List.length_eq_zero.mp (Nat.le_zero.mp h)
    subst hcs
    rfl
  | succ n ih =>
    intro cs h
    cases cs with
    | nil => rfl
    | cons c rest =>
      have hlen : rest.length ≤ n := by simp at h; omega
      rw [tokenizePlain_eq_cons]
      by_cases hc : isAsciiAlnum c = true
      · rw [if_pos hc, textOf_pair,
          ih (rest.dropWhile isAsciiAlnum) (le_trans (dropWhile_len_le _ _) hlen),
          List.cons_append, List.takeWhile_append_dropWhile]
      · rw [if_neg hc, textOf_pair, ih rest hlen]
        rfl

theorem tokenizePlain_flat (cs : List Char) : textOf (tokenizePlain cs) = cs :=
  tokenizePlain_textOfN cs.length cs le_rfl

theorem tokenizePlain_neN : ∀ (n : Nat) (cs : List Char), cs.length ≤ n →
    ∀ t ∈ tokenizePlain cs, t.1 ≠ [] := by
  intro n
  induction n with
  | zero =>
    intro cs h
    have hcs : cs = [] := List.length_eq_zero.mp (Nat.le_zero.mp h)
    subst hcs
    intro t ht
    exact absurd ht (by simp [tokenizePlain, tokenizePlainF])
  | succ n ih =>
    intro cs h
    cases cs with
    | nil => intro t ht; exact absurd ht (by simp [tokenizePlain, tokenizePlainF])
    | cons c rest =>
      have hlen : rest.length ≤ n := by simp at h; omega
      rw [tokenizePlain_eq_cons]
      by_cases hc : isAsciiAlnum c = true
      · rw [if_pos hc]
        intro t ht
        rcases List.mem_cons.mp ht with rfl | ht'
        · simp
        · exact ih (rest.dropWhile isAsciiAlnum) (le_trans (dropWhile_len_le _ _) hlen) t ht'
      · rw [if_neg hc]
        intro t ht
        rcases List.mem_cons.mp ht with rfl | ht'
        · simp
        · exact ih rest hlen t ht'

theorem tokenizePlain_ne {cs : List Char} {t : Tok} (ht : t ∈ tokenizePlain cs) : t.1 ≠ [] :=
  tokenizePlain_neN cs.length cs le_rfl t ht

theorem tokenizePlain_shapeN : ∀ (n : Nat) (cs : List Char), cs.length ≤ n →
    ∀ t ∈ tokenizePlain cs,
      (∃ c, t = ([c], 1) ∧ isAsciiAlnum c = false) ∨
      (t.1 ≠ [] ∧ t.2 = t.1.length ∧ ∀ c ∈ t.1, isAsciiAlnum c = true) := by
  intro n
  induction n with
  | zero =>
    intro cs h
    have hcs : cs = [] := List.length_eq_zero.mp (Nat.le_zero.mp h)
    subst hcs
    intro t ht
    exact absurd ht (by simp [tokenizePlain, tokenizePlainF])
  | succ n ih =>
    intro cs h
    cases cs with
    | nil => intro t ht; exact absurd ht (by simp [tokenizePlain, tokenizePlainF])
    | cons c rest =>
      have hlen : rest.length ≤ n := by simp at h; omega
      rw [tokenizePlain_eq_cons]
      by_cases hc : isAsciiAlnum c = true
      · rw [if_pos hc]
        intro t ht
        rcases List.mem_cons.mp ht with rfl | ht'
        · refine Or.inr ⟨by simp, rfl, ?_⟩
          intro x hx
          rcases List.mem_cons.mp hx with rfl | hx'
          · exact hc
          · exact List.mem_takeWhile_imp hx'
        · exact ih (rest.dropWhile isAsciiAlnum) (le_trans (dropWhile_len_le _ _) hlen) t ht'
      · rw [if_neg hc]
        intro t ht
        rcases List.mem_cons.mp ht with rfl | ht'
        · exact Or.inl ⟨c, rfl, by simpa using hc⟩
        · exact ih rest hlen t ht'

theorem tokenizePlain_shape {cs : List Char} {t : Tok} (ht : t ∈ tokenizePlain cs) :
    (∃ c, t = ([c], 1) ∧ isAsciiAlnum c = false) ∨
    (t.1 ≠ [] ∧ t.2 = t.1.length ∧ ∀ c ∈ t.1, isAsciiAlnum c = true) :=
  tokenizePlain_shapeN cs.length cs le_rfl t ht

theorem tokenizePlain_run_prepend {run s : List Char}
    (hrun : ∀ c ∈ run, isAsciiAlnum c = true) (hne : run ≠ [])
    (hs : s = [] ∨ ∃ d s', s = d :: s' ∧ isAsciiAlnum d = false) :
    tokenizePlain (run ++ s) = (run, run.length) :: tokenizePlain s := by
  cases run with
  | nil => exact absurd rfl hne
  | cons c run' =>
    rw [List.cons_append, tokenizePlain_eq_cons,
      if_pos (hrun c (List.mem_cons_self c run'))]
    obtain ⟨htw, hdw⟩ := takeWhile_run_append isAsciiAlnum run' s
      (fun x hx => hrun x (List.mem_cons_of_mem _ hx)) hs
    rw [htw, hdw]

theorem tokenizePlain_sfx : ∀ (A B : List Tok) (cs : List Char),
    tokenizePlain cs = A ++ B → tokenizePlain (textOf B) = B := by
  intro A
  induction A with
  | nil =>
    intro B cs h
    simp only [List.nil_append] at h
    subst h
    rw [tokenizePlain_flat cs]
  | cons t A' ih =>
    intro B cs h
    cases cs with
    | nil =>
      rw [show tokenizePlain [] = [] from rfl] at h
      exact absurd h.symm (by simp)
    | cons c rest =>
      rw [tokenizePlain_eq_cons] at h
      by_cases hc : isAsciiAlnum c = true
      · rw [if_pos hc] at h
        injection h with h1 h2
        exact ih B _ h2
      · rw [if_neg hc] at h
        injection h with h1 h2
        exact ih B _ h2

theorem tokenizePlain_pfx : ∀ (A B : List Tok) (cs : List Char),
    tokenizePlain cs = A ++ B → tokenizePlain (textOf A) = A := by
  intro A
  induction A with
  | nil => intro B cs _; rfl
  | cons t A' ih =>
    intro B cs h
    cases cs with
    | nil =>
      rw [show tokenizePlain [] = [] from rfl] at h
      exact absurd h.symm (by simp)
    | cons c rest =>
      rw [tokenizePlain_eq_cons] at h
      by_cases hc : isAsciiAlnum c = true
      · rw [if_pos hc] at h
        injection h with h1 h2
        have ih' := ih B _ h2
        have hs : textOf A' = [] ∨ ∃ d s', textOf A' = d :: s' ∧ isAsciiAlnum d = false := by
          cases A' with
          | nil => exact Or.inl rfl
          | cons t' A'' =>
            have ht'mem : t' ∈ tokenizePlain (rest.dropWhile isAsciiAlnum) := by
              rw [h2]
              exact List.mem_cons_self t' (A'' ++ B)
            have ht'ne : t'.1 ≠ [] := tokenizePlain_ne ht'mem
            rcases hx : t'.1 with _ | ⟨d, ds⟩
            · exact absurd hx ht'ne
            · refine Or.inr ⟨d, ds ++ textOf A'', ?_, ?_⟩
              · rw [textOf_cons, hx, List.cons_append]
              · have hq := tokenizePlain_flat (rest.dropWhile isAsciiAlnum)
                rw [h2] at hq
                simp only [List.append_eq, textOf_append, textOf_cons, hx,
                  List.cons_append, List.append_assoc] at hq
                exact dropWhile_head_false _ rest d _ hq.symm
        rw [← h1, textOf_pair]
        rw [tokenizePlain_run_prepend
          (fun x hx => by
            rcases List.mem_cons.mp hx with rfl | hx'
            · exact hc
            · exact List.mem_takeWhile_imp hx') (by simp) hs, ih']
      · rw [if_neg hc] at h
        injection h with h1 h2
        have ih' := ih B _ h2
        rw [← h1, textOf_pair, List.singleton_append, tokenizePlain_eq_cons, if_neg hc, ih']

/-! ### Tokenize lemmas -/

theorem tokenize_nil : tokenize [] = [] := rfl

theorem tokenize_flatN : ∀ (n : Nat) (cs : List Char), cs.length ≤ n →
    textOf (tokenize cs) = cs := by
  intro n
  induction n with
  | zero =>
    intro cs h
    have hcs : cs = [] := List.length_eq_zero.mp (Nat.le_zero.mp h)
    subst hcs
    rfl
  | succ n ih =>
    intro cs h
    rw [tokenize_eq]
    rcases hfn : findNext cs with ⟨pre, _ | ⟨tok, r⟩⟩ <;> simp only [hfn]
    · rw [findNext_none hfn]
      exact tokenizePlain_flat _
    · obtain ⟨hd1, hd2⟩ := findNext_decomp hfn
      have hlen := congrArg List.length hd1
      simp only [List.length_append] at hlen
      have hpos : 0 < tok.1.length := List.length_pos.mpr hd2
      rw [textOf_append, textOf_cons, tokenizePlain_flat, ih r (by omega), hd1,
        List.append_assoc]

theorem tokenize_flat (cs : List Char) : textOf (tokenize cs) = cs :=
  tokenize_flatN cs.length cs le_rfl

theorem tokenize_neN : ∀ (n : Nat) (cs : List Char), cs.length ≤ n →
    ∀ t ∈ tokenize cs, t.1 ≠ [] := by
  intro n
  induction n with
  | zero =>
    intro cs h
    have hcs : cs = [] := List.length_eq_zero.mp (Nat.le_zero.mp h)
    subst hcs
    intro t ht
    exact absurd ht (by simp [tokenize_nil])
  | succ n ih =>
    intro cs h
    rw [tokenize_eq]
    rcases hfn : findNext cs with ⟨pre, _ | ⟨tok, r⟩⟩ <;> simp only [hfn]
    · intro t ht
      exact tokenizePlain_ne ht
    · obtain ⟨hd1, hd2⟩ := findNext_decomp hfn
      have hlen := congrArg List.length hd1
      simp only [List.length_append] at hlen
      have hpos : 0 < tok.1.length := List.length_pos.mpr hd2
      intro t ht
      rcases List.mem_append.mp ht with hP | hR
      · exact tokenizePlain_ne hP
      · rcases List.mem_cons.mp hR with rfl | hR'
        · exact hd2
        · exact ih r (by omega) t hR'

theorem tokenize_ne {cs : List Char} {t : Tok} (ht : t ∈ tokenize cs) : t.1 ≠ [] :=
  tokenize_neN cs.length cs le_rfl t ht

theorem tokenize_chars {cs : List Char} {t : Tok} (ht : t ∈ tokenize cs) :
    ∀ c ∈ t.1, c ∈ cs := by
  obtain ⟨X, Y, hXY⟩ := List.append_of_mem ht
  intro c hc
  have hflat := tokenize_flat cs
  rw [hXY, textOf_append, textOf_cons] at hflat
  rw [← hflat]
  simp [hc]

theorem matchCombined_widths {cs : List Char} {t : List Char} {w : Nat} {r : List Char}
    (h : matchCombined cs = some ((t, w), r)) :
    (t.head? = some '[' ∧ (w = 1 ∨ w = 0)) ∨ (t.head? = some '{' ∧ w = t.length) ∨
      (t.head? = some '&' ∧ w = 1) := by
  unfold matchCombined at h
  split at h
  next s rr himg =>
    injection h with h'
    injection h' with h1 h2
    injection h1 with h1a h1b
    subst h1a; subst h1b
    obtain ⟨q, ht, _, _, _⟩ := matchDelim_shape himg
    exact Or.inl ⟨by rw [ht]; rfl, Or.inl rfl⟩
  next himg =>
  split at h
  next s rr htag =>
    injection h with h'
    injection h' with h1 h2
    injection h1 with h1a h1b
    subst h1a; subst h1b
    obtain ⟨q, ht, _, _, _⟩ := matchTag_shape htag
    exact Or.inl ⟨by rw [ht]; rfl, Or.inr rfl⟩
  next htag =>
  split at h
  next s rr htem =>
    injection h with h'
    injection h' with h1 h2
    injection h1 with h1a h1b
    subst h1a; subst h1b
    obtain ⟨q, ht, _, _, _⟩ := matchTemplate_shape htem
    exact Or.inr (Or.inl ⟨by rw [ht]; rfl, rfl⟩)
  next htem =>
  split at h
  next s rr hent =>
    injection h with h'
    injection h' with h1 h2
    injection h1 with h1a h1b
    subst h1a; subst h1b
    obtain ⟨q, ht, _, _, _⟩ := matchEntity_shape hent
    exact Or.inr (Or.inr ⟨by rw [ht]; rfl, rfl⟩)
  next hent => exact absurd h (by simp)

theorem tokenize_template_widthN : ∀ (n : Nat) (cs : List Char), cs.length ≤ n →
    ∀ t ∈ tokenize cs, ∀ inner, t.1 = '{' :: inner ++ ['}'] → t.2 = t.1.length := by
  intro n
  induction n with
  | zero =>
    intro cs h
    have hcs : cs = [] := List.length_eq_zero.mp (Nat.le_zero.mp h)
    subst hcs
    intro t ht
    exact absurd ht (by simp [tokenize_nil])
  | succ n ih =>
    intro cs h
    have hplain : ∀ t ∈ tokenizePlain cs, ∀ _ : True, ∀ inner,
        t.1 = '{' :: inner ++ ['}'] → t.2 = t.1.length := by
      intro t ht _ inner hshape
      rcases tokenizePlain_shape ht with ⟨c, rfl, _⟩ | ⟨_, _, halnum⟩
      · simp only at hshape
        have := congrArg List.length hshape
        simp at this
      · have : isAsciiAlnum '{' = true := halnum '{' (by rw [hshape]; simp)
        exact absurd this (by decide)
    rw [tokenize_eq]
    rcases hfn : findNext cs with ⟨pre, _ | ⟨tok, r⟩⟩ <;> simp only [hfn]
    · intro t ht inner hshape
      rcases tokenizePlain_shape ht with ⟨c, rfl, _⟩ | ⟨_, _, halnum⟩
      · simp only at hshape
        have := congrArg List.length hshape
        simp at this
      · have : isAsciiAlnum '{' = true := halnum '{' (by rw [hshape]; simp)
        exact absurd this (by decide)
    · obtain ⟨hd1, hd2⟩ := findNext_decomp hfn
      have hlen := congrArg List.length hd1
      simp only [List.length_append] at hlen
      have hpos : 0 < tok.1.length := List.length_pos.mpr hd2
      intro t ht inner hshape
      rcases List.mem_append.mp ht with hP | hR
      · rcases tokenizePlain_shape hP with ⟨c, rfl, _⟩ | ⟨_, _, halnum⟩
        · simp only at hshape
          have := congrArg List.length hshape
          simp at this
        · have : isAsciiAlnum '{' = true := halnum '{' (by rw [hshape]; simp)
          exact absurd this (by decide)
      · rcases List.mem_cons.mp hR with rfl | hR'
        · obtain ⟨ts, tw⟩ := t
          have hm := findNext_match_at hfn
          rcases matchCombined_widths hm with ⟨hhd, _⟩ | ⟨_, hw⟩ | ⟨hhd, _⟩
          · rw [show (ts, tw).1 = ts from rfl] at hshape
            rw [hshape] at hhd
            simp at hhd
          · exact hw
          · rw [show (ts, tw).1 = ts from rfl] at hshape
            rw [hshape] at hhd
            simp at hhd
        · exact ih r (by omega) t hR' inner hshape

theorem tokenize_template_width {cs : List Char} {t : Tok} (ht : t ∈ tokenize cs)
    {inner : List Char} (hshape : t.1 = '{' :: inner ++ ['}']) : t.2 = t.1.length :=
  tokenize_template_widthN cs.length cs le_rfl t ht inner hshape

/-! ### Stability of tokenization under cutting at token boundaries -/

theorem tokenize_pfx_plainAux {cs pre : List Char} {m : Option (Tok × List Char)}
    (hfn : findNext cs = (pre, m)) {B : List Tok} {z : List Char}
    (hcs : cs = textOf B ++ z) (hlenB : (textOf B).length ≤ pre.length)
    (hplain : tokenizePlain (textOf B) = B) :
    tokenize (textOf B) = B := by
  have hnone : ∀ k, k < (textOf B).length → matchCombined ((textOf B).drop k) = none := by
    intro k hk
    have hfull := findNext_no_match hfn k (lt_of_lt_of_le hk hlenB)
    rw [hcs, List.drop_append_of_le_length (le_of_lt hk)] at hfull
    exact matchCombined_none_of_append hfull
  rw [tokenize_eq]
  simp only [findNext_build_none hnone]
  exact hplain

theorem tokenize_sfxN : ∀ (n : Nat) (cs : List Char), cs.length ≤ n →
    ∀ (A B : List Tok), tokenize cs = A ++ B → tokenize (textOf B) = B := by
  intro n
  induction n with
  | zero =>
    intro cs h A B hAB
    have hcs : cs = [] := List.length_eq_zero.mp (Nat.le_zero.mp h)
    subst hcs
    rw [tokenize_nil] at hAB
    obtain ⟨_, hB⟩ := List.append_eq_nil.mp hAB.symm
    subst hB
    rfl
  | succ n ih =>
    intro cs h A B hAB
    rw [tokenize_eq] at hAB
    rcases hfn : findNext cs with ⟨pre, _ | ⟨tok, r⟩⟩ <;> simp only [hfn] at hAB
    · have hpre : pre = cs := findNext_none hfn
      subst hpre
      have hplain := tokenizePlain_sfx A B _ hAB
      have hBpre : textOf A ++ textOf B = pre := by
        rw [← textOf_append, ← hAB]
        exact tokenizePlain_flat _
      have hnone : ∀ k, k < (textOf B).length → matchCombined ((textOf B).drop k) = none := by
        intro k hk
        have hlt : (textOf A).length + k < pre.length := by
          rw [← hBpre]
          simp only [List.length_append]
          omega
        have hfull := findNext_no_match hfn ((textOf A).length + k) hlt
        rw [← hBpre, List.drop_append] at hfull
        exact hfull
      rw [tokenize_eq]
      simp only [findNext_build_none hnone]
      exact hplain
    · obtain ⟨hd1, hd2⟩ := findNext_decomp hfn
      have hlen := congrArg List.length hd1
      simp only [List.length_append] at hlen
      have hpos : 0 < tok.1.length := List.length_pos.mpr hd2
      have hm : matchCombined (tok.1 ++ r) = some (tok, r) := by
        have hma := findNext_match_at hfn
        rw [hd1, List.append_assoc, List.drop_left] at hma
        exact hma
      rcases List.append_eq_append_iff.mp hAB with ⟨a', hA, hcons⟩ | ⟨c', hP, hB⟩
      · cases a' with
        | nil =>
          simp only [List.nil_append] at hcons
          subst hcons
          have htB : textOf (tok :: tokenize r) = tok.1 ++ r := by
            rw [textOf_cons, tokenize_flatN n r (by omega)]
          rw [htB, tokenize_eq]
          have hbuild := findNext_build (p := []) (fun k hk => absurd hk (by simp)) hm
          simp only [List.nil_append] at hbuild
          simp only [hbuild]
          rfl
        | cons x a'' =>
          injection hcons with hx hrest
          exact ih r (by omega) a'' B hrest
      · subst hB
        have hplainsfx := tokenizePlain_sfx A c' _ hP
        have hpre2 : textOf A ++ textOf c' = pre := by
          rw [← textOf_append, ← hP]
          exact tokenizePlain_flat _
        have htB : textOf (c' ++ tok :: tokenize r) = textOf c' ++ (tok.1 ++ r) := by
          rw [textOf_append, textOf_cons, tokenize_flatN n r (by omega)]
        rw [htB]
        have hnone : ∀ k, k < (textOf c').length →
            matchCombined ((textOf c' ++ (tok.1 ++ r)).drop k) = none := by
          intro k hk
          have hlt : (textOf A).length + k < pre.length := by
            rw [← hpre2]
            simp only [List.length_append]
            omega
          have hfull := findNext_no_match hfn ((textOf A).length + k) hlt
          have hcs2 : cs = textOf A ++ (textOf c' ++ (tok.1 ++ r)) := by
            rw [hd1, ← hpre2]
            simp [List.append_assoc]
          rw [hcs2, List.drop_append] at hfull
          exact hfull
        have hbuild := findNext_build hnone hm
        rw [tokenize_eq]
        simp only [hbuild]
        rw [hplainsfx]

theorem tokenize_sfx {cs : List Char} {A B : List Tok} (h : tokenize cs = A ++ B) :
    tokenize (textOf B) = B := tokenize_sfxN cs.length cs le_rfl A B h

theorem tokenize_pfxN : ∀ (n : Nat) (cs : List Char), cs.length ≤ n →
    ∀ (B C : List Tok), tokenize cs = B ++ C → tokenize (textOf B) = B := by
  intro n
  induction n with
  | zero =>
    intro cs h B C hBC
    have hcs : cs = [] := List.length_eq_zero.mp (Nat.le_zero.mp h)
    subst hcs
    rw [tokenize_nil] at hBC
    obtain ⟨hB, _⟩ := List.append_eq_nil.mp hBC.symm
    subst hB
    rfl
  | succ n ih =>
    intro cs h B C hBC
    rw [tokenize_eq] at hBC
    rcases hfn : findNext cs with ⟨pre, _ | ⟨tok, r⟩⟩ <;> simp only [hfn] at hBC
    · have hpre : pre = cs := findNext_none hfn
      subst hpre
      have hplain := tokenizePlain_pfx B C _ hBC
      have hsplit : textOf B ++ textOf C = pre := by
        rw [← textOf_append, ← hBC]
        exact tokenizePlain_flat _
      refine tokenize_pfx_plainAux hfn hsplit.symm ?_ hplain
      rw [← hsplit]
      simp [List.length_append]
    · obtain ⟨hd1, hd2⟩ := findNext_decomp hfn
      have hlen := congrArg List.length hd1
      simp only [List.length_append] at hlen
      have hpos : 0 < tok.1.length := List.length_pos.mpr hd2
      have hflatp : textOf (tokenizePlain pre) = pre := tokenizePlain_flat _
      have hm : matchCombined (tok.1 ++ r) = some (tok, r) := by
        have hma := findNext_match_at hfn
        rw [hd1, List.append_assoc, List.drop_left] at hma
        exact hma
      rcases List.append_eq_append_iff.mp hBC with ⟨a', hB, hcons⟩ | ⟨c', hP, hC⟩
      · cases a' with
        | nil =>
          rw [List.append_nil] at hB
          subst hB
          refine tokenize_pfx_plainAux hfn (z := tok.1 ++ r) ?_ ?_ ?_
          · rw [hd1, hflatp, List.append_assoc]
          · rw [hflatp]
          · rw [hflatp]
        | cons x a'' =>
          injection hcons with hx hrest
          rw [List.append_eq] at hrest
          subst hx
          subst hB
          have hra : r = textOf a'' ++ textOf C := by
            have := tokenize_flatN n r (by omega)
            rw [hrest, textOf_append] at this
            exact this.symm
          have htB : textOf (tokenizePlain pre ++ tok :: a'') =
              pre ++ (tok.1 ++ textOf a'') := by
            rw [textOf_append, textOf_cons, hflatp]
          rw [htB]
          have hcsBC : cs = (pre ++ (tok.1 ++ textOf a'')) ++ textOf C := by
            rw [hd1, hra]
            simp [List.append_assoc]
          have hnone : ∀ k, k < pre.length →
              matchCombined ((pre ++ (tok.1 ++ textOf a'')).drop k) = none := by
            intro k hk
            have hfull := findNext_no_match hfn k hk
            have hlenB : k ≤ (pre ++ (tok.1 ++ textOf a'')).length := by
              simp only [List.length_append]
              omega
            rw [hcsBC, List.drop_append_of_le_length hlenB] at hfull
            exact matchCombined_none_of_append hfull
          obtain ⟨ts, tw⟩ := tok
          have hmt : matchCombined (ts ++ textOf a'') = some ((ts, tw), textOf a'') := by
            have hm' : matchCombined (ts ++ (textOf a'' ++ textOf C)) =
                some ((ts, tw), textOf a'' ++ textOf C) := by
              rw [← hra]
              exact hm
            exact matchCombined_trunc hm'
          have hbuild := findNext_build hnone hmt
          rw [tokenize_eq]
          simp only [hbuild]
          rw [ih r (by omega) a'' C hrest]
      · have hsplit : textOf B ++ textOf c' = pre := by
          rw [← textOf_append, ← hP]
          exact tokenizePlain_flat _
        have hplain := tokenizePlain_pfx B c' _ hP
        refine tokenize_pfx_plainAux hfn (z := textOf c' ++ (tok.1 ++ r)) ?_ ?_ hplain
        · rw [hd1, ← hsplit]
          simp [List.append_assoc]
        · rw [← hsplit]
          simp [List.length_append]

theorem tokenize_pfx {cs : List Char} {B C : List Tok} (h : tokenize cs = B ++ C) :
    tokenize (textOf B) = B := tokenize_pfxN cs.length cs le_rfl B C h

theorem tokenize_mid {cs : List Char} {A B C : List Tok} (h : tokenize cs = A ++ B ++ C) :
    tokenize (textOf B) = B := by
  have hsfx : tokenize (textOf (B ++ C)) = B ++ C :=
    tokenize_sfx (show tokenize cs = A ++ (B ++ C) by rw [h, List.append_assoc])
  exact tokenize_pfx hsfx

/-! ### Packing lemmas -/

theorem textOf_eq_nil {cur : List Tok} (hgood : ∀ t ∈ cur, t.1 ≠ []) (h : textOf cur = []) :
    cur = [] := by
  cases cur with
  | nil => rfl
  | cons t ts =>
    rw [textOf_cons] at h
    exact absurd (List.append_eq_nil.mp h).1 (hgood t (List.mem_cons_self t ts))

theorem textOf_ne_nil {cur : List Tok} (hgood : ∀ t ∈ cur, t.1 ≠ []) (h : cur ≠ []) :
    textOf cur ≠ [] := fun hx => h (textOf_eq_nil hgood hx)

theorem packStep_pos {maxLen : Nat} {lines : List (List Tok)} {cur : List Tok} {w : Nat}
    {t : Tok} (hc : 0 < t.2 ∧ maxLen < w + t.2 ∧ textOf cur ≠ []) :
    packStep maxLen (lines, cur, w) t = (lines ++ [cur], [t], t.2) := by
  unfold packStep
  rw [if_pos (by simpa using hc)]

theorem packStep_neg {maxLen : Nat} {lines : List (List Tok)} {cur : List Tok} {w : Nat}
    {t : Tok} (hc : ¬(0 < t.2 ∧ maxLen < w + t.2 ∧ textOf cur ≠ [])) :
    packStep maxLen (lines, cur, w) t = (lines, cur ++ [t], w + t.2) := by
  unfold packStep
  rw [if_neg (by simpa using hc)]

theorem wrapStep_pos {maxLen : Nat} {lines : List (List Char)} {cur : List Char} {w : Nat}
    {t : Tok} (hc : 0 < t.2 ∧ maxLen < w + t.2 ∧ cur ≠ []) :
    wrapStep maxLen (lines, cur, w) t = (lines ++ [cur], t.1, t.2) := by
  unfold wrapStep
  rw [if_pos (by simpa using hc)]

theorem wrapStep_neg {maxLen : Nat} {lines : List (List Char)} {cur : List Char} {w : Nat}
    {t : Tok} (hc : ¬(0 < t.2 ∧ maxLen < w + t.2 ∧ cur ≠ [])) :
    wrapStep maxLen (lines, cur, w) t = (lines, cur ++ t.1, w + t.2) := by
  unfold wrapStep
  rw [if_neg (by simpa using hc)]

theorem packFold_join (maxLen : Nat) : ∀ (toks : List Tok) (lines : List (List Tok))
    (cur : List Tok) (w : Nat),
    (toks.foldl (packStep maxLen) (lines, cur, w)).1.flatten ++
      (toks.foldl (packStep maxLen) (lines, cur, w)).2.1 = lines.flatten ++ (cur ++ toks) := by
  intro toks
  induction toks with
  | nil => intro lines cur w; simp
  | cons t ts ih =>
    intro lines cur w
    rw [List.foldl_cons]
    by_cases hc : 0 < t.2 ∧ maxLen < w + t.2 ∧ textOf cur ≠ []
    · rw [packStep_pos hc, ih]
      simp [List.append_assoc]
    · rw [packStep_neg hc, ih]
      simp [List.append_assoc]

theorem packFold_nobreak (maxLen : Nat) : ∀ (toks : List Tok) (lines : List (List Tok))
    (cur : List Tok) (w : Nat), w + widthSum toks ≤ maxLen →
    toks.foldl (packStep maxLen) (lines, cur, w) = (lines, cur ++ toks, w + widthSum toks) := by
  intro toks
  induction toks with
  | nil => intro lines cur w _; simp [widthSum]
  | cons t ts ih =>
    intro lines cur w hle
    rw [widthSum_cons] at hle
    rw [List.foldl_cons, packStep_neg (by omega)]
    rw [ih lines (cur ++ [t]) (w + t.2) (by omega)]
    rw [widthSum_cons, List.append_assoc]
    have harith : w + t.2 + widthSum ts = w + (t.2 + widthSum ts) := by omega
    rw [harith]
    rfl

theorem packFold_zerotail (maxLen : Nat) : ∀ (ts : List Tok) (lines : List (List Tok))
    (cur : List Tok) (w : Nat), (∀ u ∈ ts, u.2 = 0) →
    ts.foldl (packStep maxLen) (lines, cur, w) = (lines, cur ++ ts, w) := by
  intro ts
  induction ts with
  | nil => intro lines cur w _; simp
  | cons t ts ih =>
    intro lines cur w hz
    have ht0 : t.2 = 0 := hz t (List.mem_cons_self t ts)
    rw [List.foldl_cons, packStep_neg (by omega)]
    rw [ih lines (cur ++ [t]) (w + t.2) (fun u hu => hz u (List.mem_cons_of_mem _ hu))]
    rw [ht0, List.append_assoc]
    rfl

theorem pack_mirror (maxLen : Nat) : ∀ (toks : List Tok) (lines : List (List Tok))
    (cur : List Tok) (w : Nat),
    toks.foldl (wrapStep maxLen) (lines.map textOf, textOf cur, w) =
      ((toks.foldl (packStep maxLen) (lines, cur, w)).1.map textOf,
        textOf (toks.foldl (packStep maxLen) (lines, cur, w)).2.1,
        (toks.foldl (packStep maxLen) (lines, cur, w)).2.2) := by
  intro toks
  induction toks with
  | nil => intro lines cur w; rfl
  | cons t ts ih =>
    intro lines cur w
    rw [List.foldl_cons, List.foldl_cons]
    by_cases hc : 0 < t.2 ∧ maxLen < w + t.2 ∧ textOf cur ≠ []
    · rw [packStep_pos hc, wrapStep_pos hc]
      have ht : t.1 = textOf [t] := by simp [textOf]
      rw [ht]
      have hmap : lines.map textOf ++ [textOf cur] = (lines ++ [cur]).map textOf := by
        simp
      rw [hmap]
      exact ih (lines ++ [cur]) [t] t.2
    · rw [packStep_neg hc, wrapStep_neg hc]
      have hcur : textOf cur ++ t.1 = textOf (cur ++ [t]) := by
        rw [textOf_append]
        simp [textOf]
      rw [hcur]
      exact ih lines (cur ++ [t]) (w + t.2)

theorem packFold_inv (maxLen : Nat) : ∀ (toks : List Tok) (lines : List (List Tok))
    (cur : List Tok) (w : Nat),
    (∀ t ∈ toks, t.1 ≠ []) → (∀ t ∈ cur, t.1 ≠ []) → w = widthSum cur →
    lineOK maxLen cur →
    (∀ L ∈ lines, L ≠ [] ∧ lineOK maxLen L) →
    (∀ L ∈ lines.drop 1, startPos L) →
    (lines ≠ [] → startPos cur) →
    (cur = [] → lines = []) →
    (∀ t ∈ (toks.foldl (packStep maxLen) (lines, cur, w)).2.1, t.1 ≠ []) ∧
    (toks.foldl (packStep maxLen) (lines, cur, w)).2.2 =
      widthSum (toks.foldl (packStep maxLen) (lines, cur, w)).2.1 ∧
    lineOK maxLen (toks.foldl (packStep maxLen) (lines, cur, w)).2.1 ∧
    (∀ L ∈ (toks.foldl (packStep maxLen) (lines, cur, w)).1, L ≠ [] ∧ lineOK maxLen L) ∧
    (∀ L ∈ ((toks.foldl (packStep maxLen) (lines, cur, w)).1).drop 1, startPos L) ∧
    ((toks.foldl (packStep maxLen) (lines, cur, w)).1 ≠ [] →
      startPos (toks.foldl (packStep maxLen) (lines, cur, w)).2.1) ∧
    ((toks.foldl (packStep maxLen) (lines, cur, w)).2.1 = [] →
      (toks.foldl (packStep maxLen) (lines, cur, w)).1 = []) := by
  intro toks
  induction toks with
  | nil =>
    intro lines cur w hgood hcgood hw hcur hlines hstart hne hemp
    exact ⟨hcgood, hw, hcur, hlines, hstart, hne, hemp⟩
  | cons t ts ih =>
    intro lines cur w hgood hcgood hw hcur hlines hstart hne hemp
    have hgood' : ∀ u ∈ ts, u.1 ≠ [] := fun u hu => hgood u (List.mem_cons_of_mem _ hu)
    have htgood : t.1 ≠ [] := hgood t (List.mem_cons_self t ts)
    rw [List.foldl_cons]
    by_cases hc : 0 < t.2 ∧ maxLen < w + t.2 ∧ textOf cur ≠ []
    · rw [packStep_pos hc]
      have hcurne : cur ≠ [] := fun hx => hc.2.2 (by rw [hx]; rfl)
      refine ih (lines ++ [cur]) [t] t.2 hgood' ?_ ?_ ?_ ?_ ?_ ?_ ?_
      · intro u hu
        rcases List.mem_cons.mp hu with rfl | hu'
        · exact htgood
        · exact absurd hu' (by simp)
      · simp [widthSum]
      · rcases le_or_lt t.2 maxLen with hle | hlt
        · exact Or.inl (by simpa [widthSum] using hle)
        · exact Or.inr ⟨t, [], rfl, hlt, by simp⟩
      · intro L hL
        rcases List.mem_append.mp hL with hL' | hL'
        · exact hlines L hL'
        · rw [List.mem_singleton.mp hL']
          exact ⟨hcurne, hcur⟩
      · intro L hL
        cases lines with
        | nil =>
          simp at hL
        | cons l0 ls =>
          rw [show ((l0 :: ls) ++ [cur]).drop 1 = ls ++ [cur] by simp] at hL
          rcases List.mem_append.mp hL with hL' | hL'
          · exact hstart L (by simpa using hL')
          · rw [List.mem_singleton.mp hL']
            exact hne (by simp)
      · intro _
        exact ⟨t, [], rfl, hc.1⟩
      · intro hx
        exact absurd hx (by simp)
    · rw [packStep_neg hc]
      have hnewgood : ∀ u ∈ cur ++ [t], u.1 ≠ [] := by
        intro u hu
        rcases List.mem_append.mp hu with hu' | hu'
        · exact hcgood u hu'
        · rw [List.mem_singleton.mp hu']
          exact htgood
      have hnewOK : lineOK maxLen (cur ++ [t]) := by
        by_cases ht0 : 0 < t.2
        · by_cases hover : maxLen < w + t.2
          · have hto : textOf cur = [] := by
              by_contra hx
              exact hc ⟨ht0, hover, hx⟩
            have hcnil : cur = [] := textOf_eq_nil hcgood hto
            subst hcnil
            rcases le_or_lt t.2 maxLen with hle | hlt
            · exact Or.inl (by simpa [widthSum] using hle)
            · exact Or.inr ⟨t, [], rfl, hlt, by simp⟩
          · refine Or.inl ?_
            rw [widthSum_append]
            have : widthSum [t] = t.2 := by simp [widthSum]
            rw [this, ← hw]
            omega
        · have ht0' : t.2 = 0 := by omega
          rcases hcur with hle | ⟨u, us, hcu, hu1, hu2⟩
          · refine Or.inl ?_
            rw [widthSum_append]
            have : widthSum [t] = t.2 := by simp [widthSum]
            rw [this, ht0']
            omega
          · refine Or.inr ⟨u, us ++ [t], by rw [hcu]; simp, hu1, ?_⟩
            intro x hx
            rcases List.mem_append.mp hx with hx' | hx'
            · exact hu2 x hx'
            · rw [List.mem_singleton.mp hx']
              exact ht0'
      refine ih lines (cur ++ [t]) (w + t.2) hgood' hnewgood ?_ hnewOK hlines hstart ?_ ?_
      · rw [widthSum_append, hw]
        simp [widthSum]
      · intro hlne
        have hcurne : cur ≠ [] := fun hx => hlne (hemp hx)
        obtain ⟨u, us, hcu, hu1⟩ := hne hlne
        exact ⟨u, us ++ [t], by rw [hcu]; simp, hu1⟩
      · intro hx
        exact absurd hx (by simp)

theorem packLines_def (maxLen : Nat) (toks : List Tok) :
    packLines maxLen toks =
      if textOf (toks.foldl (packStep maxLen) ([], [], 0)).2.1 ≠ [] then
        (toks.foldl (packStep maxLen) ([], [], 0)).1 ++
          [(toks.foldl (packStep maxLen) ([], [], 0)).2.1]
      else (toks.foldl (packStep maxLen) ([], [], 0)).1 := rfl

theorem packLines_props (maxLen : Nat) (toks : List Tok) (hgood : ∀ t ∈ toks, t.1 ≠ []) :
    (∀ L ∈ packLines maxLen toks, L ≠ [] ∧ lineOK maxLen L) ∧
    (∀ L ∈ (packLines maxLen toks).drop 1, startPos L) ∧
    (packLines maxLen toks).flatten = toks := by
  obtain ⟨hcgood, hwid, hcOK, hlines, hstart, hne, hemp⟩ :=
    packFold_inv maxLen toks [] [] 0 hgood (by simp) (by simp [widthSum])
      (Or.inl (by simp [widthSum])) (by simp) (by simp) (by simp) (fun _ => rfl)
  have hjoin := packFold_join maxLen toks [] [] 0
  simp only [List.flatten_nil, List.nil_append] at hjoin
  rw [packLines_def]
  by_cases hto : textOf (toks.foldl (packStep maxLen) ([], [], 0)).2.1 = []
  · rw [if_neg (by simpa using hto)]
    have hcnil := textOf_eq_nil hcgood hto
    refine ⟨hlines, hstart, ?_⟩
    rw [hcnil, List.append_nil] at hjoin
    exact hjoin
  · rw [if_pos (by simpa using hto)]
    have hcne : (toks.foldl (packStep maxLen) ([], [], 0)).2.1 ≠ [] := by
      intro hx
      exact hto (by rw [hx]; rfl)
    refine ⟨?_, ?_, ?_⟩
    · intro L hL
      rcases List.mem_append.mp hL with hL' | hL'
      · exact hlines L hL'
      · rw [List.mem_singleton.mp hL']
        exact ⟨hcne, hcOK⟩
    · intro L hL
      rcases hl : (toks.foldl (packStep maxLen) ([], [], 0)).1 with _ | ⟨l0, ls⟩
      · rw [hl] at hL
        simp at hL
      · rw [hl] at hL
        rw [show ((l0 :: ls) ++ [(toks.foldl (packStep maxLen) ([], [], 0)).2.1]).drop 1 =
          ls ++ [(toks.foldl (packStep maxLen) ([], [], 0)).2.1] by simp] at hL
        rcases List.mem_append.mp hL with hL' | hL'
        · refine hstart L ?_
          rw [hl]
          simpa using hL'
        · rw [List.mem_singleton.mp hL']
          exact hne (by rw [hl]; simp)
    · rw [List.flatten_append]
      simp only [List.flatten_cons, List.flatten_nil, List.append_nil]
      exact hjoin

theorem wrapSegment_def (s : List Char) (maxLen : Nat) :
    wrapSegment s maxLen =
      if widthSum (tokenize s) ≤ maxLen then s
      else List.intercalate ['\n']
        (if ((tokenize s).foldl (wrapStep maxLen) ([], [], 0)).2.1 ≠ [] then
          ((tokenize s).foldl (wrapStep maxLen) ([], [], 0)).1 ++
            [((tokenize s).foldl (wrapStep maxLen) ([], [], 0)).2.1]
        else ((tokenize s).foldl (wrapStep maxLen) ([], [], 0)).1) := rfl

theorem wrapSegment_eq_pack (s : List Char) (maxLen : Nat) :
    wrapSegment s maxLen =
      List.intercalate ['\n'] ((packLines maxLen (tokenize s)).map textOf) := by
  rw [wrapSegment_def, packLines_def]
  by_cases hle : widthSum (tokenize s) ≤ maxLen
  · rw [if_pos hle]
    have hfold := packFold_nobreak maxLen (tokenize s) [] [] 0 (by omega)
    rw [hfold]
    simp only [List.nil_append]
    by_cases hto : textOf (tokenize s) = []
    · rw [if_neg (by simpa using hto)]
      have hs : s = [] := by rw [← tokenize_flat s, hto]
      rw [hs]
      rfl
    · rw [if_pos (by simpa using hto)]
      simp [tokenize_flat s, List.intercalate]
  · rw [if_neg hle]
    have hmir := pack_mirror maxLen (tokenize s) [] [] 0
    simp only [List.map_nil, textOf_nil] at hmir
    rw [hmir]
    by_cases hto : textOf ((tokenize s).foldl (packStep maxLen) ([], [], 0)).2.1 = []
    · rw [if_neg (by simpa using hto), if_neg (by simpa using hto)]
    · rw [if_pos (by simpa using hto), if_pos (by simpa using hto)]
      simp

theorem packFold_rule (maxLen : Nat) : ∀ (toks : List Tok) (lines : List (List Tok))
    (cur : List Tok) (w : Nat), (∀ t ∈ toks, t.1 ≠ []) → (∀ t ∈ cur, t.1 ≠ []) →
    (if textOf (toks.foldl (packStep maxLen) (lines, cur, w)).2.1 ≠ [] then
      (toks.foldl (packStep maxLen) (lines, cur, w)).1 ++
        [(toks.foldl (packStep maxLen) (lines, cur, w)).2.1]
    else (toks.foldl (packStep maxLen) (lines, cur, w)).1) =
      lines ++ packByRule maxLen cur w toks := by
  intro toks
  induction toks with
  | nil =>
    intro lines cur w _ hcgood
    simp only [List.foldl_nil]
    unfold packByRule
    by_cases hcnil : cur = []
    · subst hcnil
      rw [if_neg (by simp [textOf]), if_pos rfl, List.append_nil]
    · rw [if_pos (textOf_ne_nil hcgood hcnil), if_neg hcnil]
  | cons t ts ih =>
    intro lines cur w hgood hcgood
    have hgood' : ∀ u ∈ ts, u.1 ≠ [] := fun u hu => hgood u (List.mem_cons_of_mem _ hu)
    have htgood : t.1 ≠ [] := hgood t (List.mem_cons_self t ts)
    rw [List.foldl_cons]
    unfold packByRule
    by_cases hc : 0 < t.2 ∧ maxLen < w + t.2 ∧ cur ≠ []
    · have hc' : 0 < t.2 ∧ maxLen < w + t.2 ∧ textOf cur ≠ [] :=
        ⟨hc.1, hc.2.1, textOf_ne_nil hcgood hc.2.2⟩
      rw [packStep_pos hc', if_pos hc,
        ih (lines ++ [cur]) [t] t.2 hgood'
          (fun u hu => by rw [List.mem_singleton.mp hu]; exact htgood)]
      simp [List.append_assoc]
    · have hc' : ¬(0 < t.2 ∧ maxLen < w + t.2 ∧ textOf cur ≠ []) := by
        intro hx
        exact hc ⟨hx.1, hx.2.1, fun hnil => hx.2.2 (by rw [hnil]; rfl)⟩
      rw [packStep_neg hc', if_neg hc]
      refine ih lines (cur ++ [t]) (w + t.2) hgood' ?_
      intro u hu
      rcases List.mem_append.mp hu with hu' | hu'
      · exact hcgood u hu'
      · rw [List.mem_singleton.mp hu']
        exact htgood

theorem packLines_eq_rule (maxLen : Nat) (toks : List Tok) (hgood : ∀ t ∈ toks, t.1 ≠ []) :
    packLines maxLen toks = packByRule maxLen [] 0 toks := by
  rw [packLines_def]
  have hr := packFold_rule maxLen toks [] [] 0 hgood (by simp)
  simpa using hr

/-! ### splitNl lemmas -/

theorem splitNl_ne_nil : ∀ cs : List Char, splitNl cs ≠ [] := by
  intro cs
  cases cs with
  | nil => simp [splitNl]
  | cons c rest =>
    unfold splitNl
    by_cases hc : c = '\n'
    · rw [if_pos hc]
      simp
    · rw [if_neg hc]
      rcases h : splitNl rest with _ | ⟨p, ps⟩ <;> simp

theorem intercalate_nl_single (x : List Char) : List.intercalate ['\n'] [x] = x := by
  simp [List.intercalate]

theorem intercalate_nl_cons₂ (x y : List Char) (ys : List (List Char)) :
    List.intercalate ['\n'] (x :: y :: ys) =
      x ++ '\n' :: List.intercalate ['\n'] (y :: ys) := by
  show (List.intersperse ['\n'] (x :: y :: ys)).flatten = _
  rw [List.intersperse_cons₂]
  rw [List.flatten_cons, List.flatten_cons]
  rfl

theorem splitNl_cons (c : Char) (rest : List Char) :
    splitNl (c :: rest) =
      if c = '\n' then [] :: splitNl rest
      else match splitNl rest with
        | [] => [[c]]
        | p :: ps => (c :: p) :: ps := rfl

theorem splitNl_append_nl : ∀ (a b : List Char),
    splitNl (a ++ '\n' :: b) = splitNl a ++ splitNl b := by
  intro a
  induction a with
  | nil =>
    intro b
    rw [List.nil_append, splitNl_cons, if_pos rfl]
    rfl
  | cons c a' ih =>
    intro b
    rw [List.cons_append, splitNl_cons, splitNl_cons]
    by_cases hc : c = '\n'
    · rw [if_pos hc, if_pos hc, ih b]
      rfl
    · rw [if_neg hc, if_neg hc, ih b]
      rcases hsp : splitNl a' with _ | ⟨p, ps⟩
      · exact absurd hsp (splitNl_ne_nil a')
      · simp only [hsp]
        rfl

theorem splitNl_no_nl : ∀ cs : List Char, '\n' ∉ cs → splitNl cs = [cs] := by
  intro cs
  induction cs with
  | nil => intro _; rfl
  | cons c rest ih =>
    intro h
    have hc : c ≠ '\n' := fun hx => h (by rw [hx]; exact List.mem_cons_self _ _)
    have hrest : '\n' ∉ rest := fun hx => h (List.mem_cons_of_mem _ hx)
    unfold splitNl
    rw [if_neg hc, ih hrest]

theorem splitNl_mem_no_nl : ∀ (cs : List Char) (p : List Char), p ∈ splitNl cs → '\n' ∉ p := by
  intro cs
  induction cs with
  | nil =>
    intro p hp
    rw [show splitNl [] = [[]] from rfl] at hp
    rw [List.mem_singleton.mp hp]
    simp
  | cons c rest ih =>
    intro p hp
    unfold splitNl at hp
    by_cases hc : c = '\n'
    · rw [if_pos hc] at hp
      rcases List.mem_cons.mp hp with rfl | hp'
      · simp
      · exact ih p hp'
    · rw [if_neg hc] at hp
      rcases hsp : splitNl rest with _ | ⟨p0, ps⟩
      · exact absurd hsp (splitNl_ne_nil rest)
      · rw [hsp] at hp
        rcases List.mem_cons.mp hp with rfl | hp'
        · intro hmem
          rcases List.mem_cons.mp hmem with heq | hmem'
          · exact hc heq.symm
          · exact ih p0 (by rw [hsp]; exact List.mem_cons_self p0 ps) hmem'
        · exact ih p (by rw [hsp]; exact List.mem_cons_of_mem _ hp')

theorem splitNl_intercalate : ∀ cs : List Char, List.intercalate ['\n'] (splitNl cs) = cs := by
  intro cs
  induction cs with
  | nil => rfl
  | cons c rest ih =>
    rw [splitNl_cons]
    by_cases hc : c = '\n'
    · rw [if_pos hc]
      rcases hsp : splitNl rest with _ | ⟨p, ps⟩
      · exact absurd hsp (splitNl_ne_nil rest)
      · simp only [hsp] at ih ⊢
        rw [intercalate_nl_cons₂, List.nil_append, ih, hc]
    · rw [if_neg hc]
      rcases hsp : splitNl rest with _ | ⟨p, ps⟩
      · exact absurd hsp (splitNl_ne_nil rest)
      · simp only [hsp] at ih ⊢
        cases ps with
        | nil =>
          rw [intercalate_nl_single] at ih
          rw [intercalate_nl_single, ih]
        | cons q qs =>
          rw [intercalate_nl_cons₂] at ih
          rw [intercalate_nl_cons₂, List.cons_append, ih]

theorem splitNl_intercalate_flatten : ∀ (ls : List (List Char)), ls ≠ [] →
    splitNl (List.intercalate ['\n'] ls) = (ls.map splitNl).flatten := by
  intro ls
  induction ls with
  | nil => intro h; exact absurd rfl h
  | cons x ls' ih =>
    intro _
    cases ls' with
    | nil =>
      rw [intercalate_nl_single]
      simp
    | cons y ys =>
      rw [intercalate_nl_cons₂, splitNl_append_nl, ih (by simp)]
      simp

/-! ### Filter lemmas for break preservation -/

theorem filter_nl_no_nl {l : List Char} (h : '\n' ∉ l) :
    l.filter (fun c => decide (c ≠ '\n')) = l := by
  rw [List.filter_eq_self]
  intro a ha
  have hne : a ≠ '\n' := fun hx => h (hx ▸ ha)
  simpa using hne

theorem filter_nl_intercalate : ∀ (ls : List (List Char)),
    (List.intercalate ['\n'] ls).filter (fun c => decide (c ≠ '\n')) =
      (ls.map (fun l => l.filter (fun c => decide (c ≠ '\n')))).flatten := by
  intro ls
  induction ls with
  | nil => rfl
  | cons x ls' ih =>
    cases ls' with
    | nil =>
      rw [intercalate_nl_single]
      simp
    | cons y ys =>
      rw [intercalate_nl_cons₂, List.filter_append]
      have hnlf : ('\n' :: List.intercalate ['\n'] (y :: ys)).filter
          (fun c => decide (c ≠ '\n')) =
          (List.intercalate ['\n'] (y :: ys)).filter (fun c => decide (c ≠ '\n')) := by
        simp
      rw [hnlf, ih]
      simp

/-! ### Wrapper-level lemmas -/

theorem flatten_map_singleton {α β : Type} (f : α → β) : ∀ (l : List α),
    (l.map (fun x => [f x])).flatten = l.map f := by
  intro l
  induction l with
  | nil => rfl
  | cons x xs ih => simp [ih]

theorem wrapSegment_nil (maxLen : Nat) : wrapSegment [] maxLen = [] := by
  rw [wrapSegment_def, if_pos (by simp [tokenize_nil, widthSum])]

theorem packLines_no_nl {maxLen : Nat} {s : List Char} (hnl : '\n' ∉ s) :
    ∀ L ∈ packLines maxLen (tokenize s), '\n' ∉ textOf L := by
  intro L hL hmem
  have hgood : ∀ t ∈ tokenize s, t.1 ≠ [] := fun t ht => tokenize_ne ht
  obtain ⟨_, _, hflat⟩ := packLines_props maxLen (tokenize s) hgood
  rw [textOf] at hmem
  obtain ⟨piece, hpiece, hcm⟩ := List.mem_flatten.mp hmem
  obtain ⟨tok, htok, rfl⟩ := List.mem_map.mp hpiece
  have htoks : tok ∈ tokenize s := by
    rw [← hflat]
    exact List.mem_flatten.mpr ⟨L, hL, htok⟩
  exact hnl (tokenize_chars htoks _ hcm)

theorem packLines_ne_nil {maxLen : Nat} {s : List Char} (hs : s ≠ []) :
    packLines maxLen (tokenize s) ≠ [] := by
  intro hx
  have hgood : ∀ t ∈ tokenize s, t.1 ≠ [] := fun t ht => tokenize_ne ht
  obtain ⟨_, _, hflat⟩ := packLines_props maxLen (tokenize s) hgood
  rw [hx] at hflat
  have hsnil : s = [] := by
    rw [← tokenize_flat s, ← hflat]
    rfl
  exact hs hsnil

theorem splitNl_wrapSegment {s : List Char} (hnl : '\n' ∉ s) (hs : s ≠ []) (maxLen : Nat) :
    splitNl (wrapSegment s maxLen) = (packLines maxLen (tokenize s)).map textOf := by
  rw [wrapSegment_eq_pack]
  rw [splitNl_intercalate_flatten _ (by
    simp only [ne_eq, List.map_eq_nil_iff]
    exact packLines_ne_nil hs)]
  rw [List.map_map]
  have hcongr : ∀ L ∈ packLines maxLen (tokenize s), (splitNl ∘ textOf) L = [textOf L] := by
    intro L hL
    exact splitNl_no_nl _ (packLines_no_nl hnl L hL)
  rw [List.map_congr_left hcongr, flatten_map_singleton]

theorem packLines_mem_decomp {maxLen : Nat} {toks : List Tok} {L : List Tok}
    (hgood : ∀ t ∈ toks, t.1 ≠ []) (hL : L ∈ packLines maxLen toks) :
    ∃ X Y, toks = X ++ L ++ Y := by
  obtain ⟨_, _, hflat⟩ := packLines_props maxLen toks hgood
  obtain ⟨S, T, hST⟩ := List.append_of_mem hL
  refine ⟨S.flatten, T.flatten, ?_⟩
  rw [← hflat, hST]
  simp [List.flatten_append, List.append_assoc]

theorem wrapSegment_line_fixed {maxLen : Nat} {s : List Char} {L : List Tok}
    (hL : L ∈ packLines maxLen (tokenize s)) :
    wrapSegment (textOf L) maxLen = textOf L := by
  have hgood : ∀ t ∈ tokenize s, t.1 ≠ [] := fun t ht => tokenize_ne ht
  obtain ⟨hLprops, _, hflat⟩ := packLines_props maxLen (tokenize s) hgood
  obtain ⟨X, Y, hXY⟩ := packLines_mem_decomp hgood hL
  have htok : tokenize (textOf L) = L := tokenize_mid hXY
  have hLgood : ∀ t ∈ L, t.1 ≠ [] := by
    intro t ht
    refine hgood t ?_
    rw [hXY]
    simp [ht]
  rw [wrapSegment_def, htok]
  by_cases hle : widthSum L ≤ maxLen
  · rw [if_pos hle]
  · rw [if_neg hle]
    rcases (hLprops L hL).2 with hle' | ⟨t0, ts, rfl, hover, hzero⟩
    · exact absurd hle' hle
    · have hmir := pack_mirror maxLen (t0 :: ts) [] [] 0
      simp only [List.map_nil, textOf_nil] at hmir
      rw [hmir]
      have hfold : (t0 :: ts).foldl (packStep maxLen) ([], [], 0) = ([], t0 :: ts, t0.2) := by
        rw [List.foldl_cons, packStep_neg (fun hx => hx.2.2 textOf_nil)]
        rw [packFold_zerotail maxLen ts ([] : List (List Tok)) ([] ++ [t0]) (0 + t0.2) hzero]
        simp
      rw [hfold]
      have htne : textOf (t0 :: ts) ≠ [] := textOf_ne_nil hLgood (by simp)
      rw [if_pos (by simpa using htne)]
      simp [List.intercalate]

theorem wrapJaText_fst (t : List Char) (w : Nat) (ht : t ≠ []) :
    (wrapJaText t w).1 =
      List.intercalate ['\n'] ((splitNl t).map (fun p => wrapSegment p w)) := by
  unfold wrapJaText
  rw [if_neg ht]

theorem splitNl_wrapJaText (t : List Char) (w : Nat) :
    splitNl ((wrapJaText t w).1) =
      ((splitNl t).map (fun p => splitNl (wrapSegment p w))).flatten := by
  by_cases ht : t = []
  · subst ht
    simp [wrapJaText, wrapSegment_nil, splitNl]
  · rw [wrapJaText_fst t w ht]
    rw [splitNl_intercalate_flatten _ (by
      simp only [ne_eq, List.map_eq_nil_iff]
      exact splitNl_ne_nil t)]
    rw [List.map_map]
    rfl

theorem wrapJaText_lines_fixed (t : List Char) (w : Nat) :
    ∀ L ∈ splitNl ((wrapJaText t w).1), wrapSegment L w = L := by
  intro L hL
  rw [splitNl_wrapJaText] at hL
  obtain ⟨block, hblock, hLb⟩ := List.mem_flatten.mp hL
  obtain ⟨p, hp, rfl⟩ := List.mem_map.mp hblock
  by_cases hpnil : p = []
  · subst hpnil
    rw [wrapSegment_nil] at hLb
    rw [show splitNl [] = [[]] from rfl] at hLb
    rw [List.mem_singleton.mp hLb]
    exact wrapSegment_nil w
  · have hnl : '\n' ∉ p := splitNl_mem_no_nl t p hp
    rw [splitNl_wrapSegment hnl hpnil w] at hLb
    obtain ⟨Lt, hLt, rfl⟩ := List.mem_map.mp hLb
    exact wrapSegment_line_fixed hLt

theorem wrapJaText_idem (t : List Char) (w : Nat) :
    wrapJaText ((wrapJaText t w).1) w = ((wrapJaText t w).1, false) := by
  rcases ht' : (wrapJaText t w).1 with _ | ⟨c, rest⟩
  · rfl
  · unfold wrapJaText
    rw [if_neg (by simp)]
    have hfix : (splitNl (c :: rest)).map (fun p => wrapSegment p w) = splitNl (c :: rest) := by
      have hcongr := wrapJaText_lines_fixed t w
      rw [ht'] at hcongr
      rw [List.map_congr_left hcongr]
      simp
    rw [hfix, splitNl_intercalate]
    simp

/-! ### Merge lemmas -/

theorem buildIndexStep_some {idx : List Char → Option (List Char)}
    {row : Option (List Char) × Option (List Char)} {k v : List Char}
    (h : buildIndexStep idx row k = some v) :
    idx k = some v ∨ (k ≠ [] ∧ strip v ≠ []) := by
  simp only [buildIndexStep] at h
  by_cases hcond : normalizeText row.1 ≠ [] ∧ strip (row.2.getD []) ≠ []
  · rw [if_pos hcond] at h
    by_cases hk : k = normalizeText row.1
    · rw [if_pos hk] at h
      injection h with h'
      subst h'
      exact Or.inr ⟨by rw [hk]; exact hcond.1, hcond.2⟩
    · rw [if_neg hk] at h
      exact Or.inl h
  · rw [if_neg hcond] at h
    exact Or.inl h

theorem buildIndex_aux : ∀ (rows : List (Option (List Char) × Option (List Char)))
    (acc : List Char → Option (List Char)),
    (∀ k v, acc k = some v → k ≠ [] ∧ strip v ≠ []) →
    ∀ k v, rows.foldl buildIndexStep acc k = some v → k ≠ [] ∧ strip v ≠ [] := by
  intro rows
  induction rows with
  | nil =>
    intro acc hacc k v h
    exact hacc k v h
  | cons row rest ih =>
    intro acc hacc k v h
    rw [List.foldl_cons] at h
    refine ih _ ?_ k v h
    intro k' v' h'
    rcases buildIndexStep_some h' with hold | hnew
    · exact hacc k' v' hold
    · exact hnew

theorem buildIndex_nonblank {rows : List (Option (List Char) × Option (List Char))}
    {k v : List Char} (h : buildIndex rows k = some v) : k ≠ [] ∧ strip v ≠ [] :=
  buildIndex_aux rows _ (fun _ _ hx => absurd hx (by simp)) k v h

theorem mergeRows_spec (idx : List Char → Option (List Char)) :
    ∀ (base : List MergeRow),
    (mergeRows idx base).1.length = base.length ∧
    List.Forall₂ (fun r' r => r'.key = r.key ∧ r'.other = r.other ∧
      (normalizeText r.target ≠ [] → r' = r) ∧
      (r'.target ≠ r.target → normalizeText r.target = [] ∧
        ∃ v, idx (normalizeText r.key) = some v ∧ r'.target = some v))
      (mergeRows idx base).1 base ∧
    (mergeRows idx base).2.1 = base.countP (fun r =>
      (idx (normalizeText r.key)).isSome && (normalizeText r.target).isEmpty) ∧
    (mergeRows idx base).2.2 = base.countP (fun r =>
      (idx (normalizeText r.key)).isSome && !(normalizeText r.target).isEmpty) := by
  intro base
  induction base with
  | nil => exact ⟨rfl, List.Forall₂.nil, rfl, rfl⟩
  | cons row rest ih =>
    obtain ⟨ihlen, ihfa, ihm, ihs⟩ := ih
    simp only [mergeRows]
    rcases hidx : idx (normalizeText row.key) with _ | v <;> simp only [hidx]
    · refine ⟨by simp [ihlen], ?_, ?_, ?_⟩
      · exact List.Forall₂.cons ⟨rfl, rfl, fun _ => rfl, fun hx => absurd rfl hx⟩ ihfa
      · rw [List.countP_cons]
        simp only [hidx, Option.isSome_none, Bool.false_and, if_neg]
        simp [ihm]
      · rw [List.countP_cons]
        simp only [hidx, Option.isSome_none, Bool.false_and, if_neg]
        simp [ihs]
    · by_cases hcur : normalizeText row.target = []
      · rw [if_pos hcur]
        refine ⟨by simp [ihlen], ?_, ?_, ?_⟩
        · refine List.Forall₂.cons ?_ ihfa
          exact ⟨rfl, rfl, fun hx => absurd hcur hx, fun _ => ⟨hcur, v, hidx, rfl⟩⟩
        · rw [List.countP_cons]
          simp only [hidx, Option.isSome_some, Bool.true_and, hcur, List.isEmpty_nil,
            if_pos]
          simp [ihm]
          omega
        · rw [List.countP_cons]
          simp only [hidx, Option.isSome_some, Bool.true_and, hcur, List.isEmpty_nil]
          simp [ihs]
      · rw [if_neg hcur]
        refine ⟨by simp [ihlen], ?_, ?_, ?_⟩
        · exact List.Forall₂.cons ⟨rfl, rfl, fun _ => rfl, fun hx => absurd rfl hx⟩ ihfa
        · rw [List.countP_cons]
          have hie : (normalizeText row.target).isEmpty = false := by
            rcases hx : normalizeText row.target with _ | ⟨a, b⟩
            · exact absurd hx hcur
            · rfl
          simp only [hidx, Option.isSome_some, Bool.true_and, hie]
          simp [ihm]
        · rw [List.countP_cons]
          have hie : (normalizeText row.target).isEmpty = false := by
            rcases hx : normalizeText row.target with _ | ⟨a, b⟩
            · exact absurd hx hcur
            · rfl
          simp only [hidx, Option.isSome_some, Bool.true_and, hie]
          simp [ihs]
          omega

theorem textOf_flatten : ∀ (ls : List (List Tok)), textOf ls.flatten = (ls.map textOf).flatten := by
  intro ls
  induction ls with
  | nil => rfl
  | cons x xs ih =>
    rw [List.flatten_cons, textOf_append, ih]
    rfl

theorem wrapSegment_lines_ne_nil {w : Nat} {s : List Char} (hs : s ≠ []) (hnl : '\n' ∉ s) :
    ∀ L ∈ splitNl (wrapSegment s w), L ≠ [] := by
  intro L hL
  rw [splitNl_wrapSegment hnl hs w] at hL
  obtain ⟨Lt, hLt, rfl⟩ := List.mem_map.mp hL
  have hgood : ∀ x ∈ tokenize s, x.1 ≠ [] := fun x hx => tokenize_ne hx
  obtain ⟨hprops, _, _⟩ := packLines_props w (tokenize s) hgood
  have hLgood : ∀ x ∈ Lt, x.1 ≠ [] := by
    intro x hx
    obtain ⟨X, Y, hXY⟩ := packLines_mem_decomp hgood hLt
    refine hgood x ?_
    rw [hXY]
    simp [hx]
  exact textOf_ne_nil hLgood (hprops Lt hLt).1

/-! ### Claim theorems -/

/-- C1: for a newline-free segment and a positive maximum width, the output of
`wrapSegment` is exactly the join of the greedily packed lines; every packed
line either has summed token display width within the maximum or contains an
over-long atomic token; the packed lines coincide with the partition produced
by the specification's break rule (`packByRule`: a break before a
positive-width token exactly when adding its width to the accumulated width
would exceed the maximum and the current line is non-empty, zero-width tokens
always appended); and every line after the first starts with a positive-width
token, so zero-width tokens never trigger a break. -/
theorem c1_wrap_segment_width_bound (s : List Char) (maxLen : Nat)
    (hnl : '\n' ∉ s) (hpos : 0 < maxLen) :
    wrapSegment s maxLen =
      List.intercalate ['\n'] ((packLines maxLen (tokenize s)).map textOf) ∧
    (∀ L ∈ packLines maxLen (tokenize s),
      widthSum L ≤ maxLen ∨ ∃ t ∈ L, maxLen < t.2) ∧
    packLines maxLen (tokenize s) = packByRule maxLen [] 0 (tokenize s) ∧
    (∀ L ∈ (packLines maxLen (tokenize s)).drop 1, ∃ t ts, L = t :: ts ∧ 0 < t.2) := by
  have hgood : ∀ t ∈ tokenize s, t.1 ≠ [] := fun t ht => tokenize_ne ht
  obtain ⟨hprops, hstart, _⟩ := packLines_props maxLen (tokenize s) hgood
  refine ⟨wrapSegment_eq_pack s maxLen, ?_, packLines_eq_rule maxLen _ hgood, hstart⟩
  intro L hL
  rcases (hprops L hL).2 with hle | ⟨t, ts, rfl, hover, _⟩
  · exact Or.inl hle
  · exact Or.inr ⟨t, List.mem_cons_self t ts, hover⟩

theorem c1_wrap_segment_width_bound_witness :
    wrapSegment ['a', 'b', ' ', 'c', 'd'] 2 =
      List.intercalate ['\n'] ((packLines 2 (tokenize ['a', 'b', ' ', 'c', 'd'])).map textOf) :=
  (c1_wrap_segment_width_bound ['a', 'b', ' ', 'c', 'd'] 2 (by decide) (by decide)).1

/-- C2: for every input and positive maximum width, every token recognized by
the tokenizer in any explicit segment of the input appears contiguously,
unsplit, within a single output line of `wrapJaText`. -/
theorem c2_atomic_tokens (t : List Char) (w : Nat) (hpos : 0 < w) :
    ∀ p ∈ splitNl t, ∀ tok ∈ tokenize p,
      ∃ L ∈ splitNl ((wrapJaText t w).1), ∃ u v, L = u ++ tok.1 ++ v := by
  intro p hp tok htok
  rw [splitNl_wrapJaText]
  by_cases hpnil : p = []
  · subst hpnil
    rw [tokenize_nil] at htok
    exact absurd htok (by simp)
  · have hnl : '\n' ∉ p := splitNl_mem_no_nl t p hp
    have hgood : ∀ x ∈ tokenize p, x.1 ≠ [] := fun x hx => tokenize_ne hx
    obtain ⟨_, _, hflat⟩ := packLines_props w (tokenize p) hgood
    have htokL : ∃ L ∈ packLines w (tokenize p), tok ∈ L := by
      rw [← hflat] at htok
      exact List.mem_flatten.mp htok
    obtain ⟨L, hL, htokmem⟩ := htokL
    refine ⟨textOf L, ?_, ?_⟩
    · refine List.mem_flatten.mpr ⟨splitNl (wrapSegment p w), ?_, ?_⟩
      · exact List.mem_map.mpr ⟨p, hp, rfl⟩
      · rw [splitNl_wrapSegment hnl hpnil w]
        exact List.mem_map.mpr ⟨L, hL, rfl⟩
    · obtain ⟨X, Y, hXY⟩ := List.append_of_mem htokmem
      refine ⟨textOf X, textOf Y, ?_⟩
      rw [hXY, textOf_append, textOf_cons]
      simp [List.append_assoc]

theorem c2_atomic_tokens_witness :
    ∃ L ∈ splitNl ((wrapJaText ['[', 'b', ']', 'x', 'y'] 1).1),
      ∃ u v, L = u ++ ['[', 'b', ']'] ++ v :=
  c2_atomic_tokens ['[', 'b', ']', 'x', 'y'] 1 (by decide) ['[', 'b', ']', 'x', 'y']
    (by decide) ((['[', 'b', ']'], 0) : Tok) (by decide)

/-- C3: tokenization is lossless, concatenating the token texts in order
reproduces the input string exactly. -/
theorem c3_tokenize_lossless (cs : List Char) : textOf (tokenize cs) = cs :=
  tokenize_flat cs

/-- C4: wrapping is idempotent: applying `wrapJaText` to its own output with
the same positive width returns the text unchanged with the changed flag
false; in particular any segment whose total display width is within the
maximum is returned unchanged by `wrapSegment`. -/
theorem c4_wrap_idempotent (t : List Char) (w : Nat) (hpos : 0 < w) :
    wrapJaText ((wrapJaText t w).1) w = ((wrapJaText t w).1, false) ∧
    ∀ s : List Char, widthSum (tokenize s) ≤ w → wrapSegment s w = s := by
  refine ⟨wrapJaText_idem t w, ?_⟩
  intro s hle
  rw [wrapSegment_def, if_pos hle]

theorem c4_wrap_idempotent_witness :
    wrapJaText ((wrapJaText ['a', 'b', 'c', ' ', 'd'] 2).1) 2 =
      ((wrapJaText ['a', 'b', 'c', ' ', 'd'] 2).1, false) :=
  (c4_wrap_idempotent ['a', 'b', 'c', ' ', 'd'] 2 (by decide)).1

/-- C5: explicit line breaks are preserved: deleting all newline characters
from the output of `wrapJaText` yields the input with all newline characters
deleted, and the output's lines decompose, in order, into one block per
original explicit segment, so no content is merged or reordered across an
original break. -/
theorem c5_explicit_breaks (t : List Char) (w : Nat) (hpos : 0 < w) :
    ((wrapJaText t w).1).filter (fun c => decide (c ≠ '\n')) =
      t.filter (fun c => decide (c ≠ '\n')) ∧
    splitNl ((wrapJaText t w).1) =
      ((splitNl t).map (fun p => splitNl (wrapSegment p w))).flatten := by
  refine ⟨?_, splitNl_wrapJaText t w⟩
  by_cases ht : t = []
  · subst ht
    rfl
  · rw [wrapJaText_fst t w ht, filter_nl_intercalate]
    conv_rhs => rw [← splitNl_intercalate t]
    rw [filter_nl_intercalate, List.map_map]
    congr 1
    apply List.map_congr_left
    intro p hp
    have hnl : '\n' ∉ p := splitNl_mem_no_nl t p hp
    show (wrapSegment p w).filter _ = p.filter _
    rw [filter_nl_no_nl hnl]
    by_cases hpnil : p = []
    · rw [hpnil, wrapSegment_nil]
      rfl
    · rw [wrapSegment_eq_pack, filter_nl_intercalate, List.map_map]
      have hgood : ∀ x ∈ tokenize p, x.1 ≠ [] := fun x hx => tokenize_ne hx
      obtain ⟨_, _, hflat⟩ := packLines_props w (tokenize p) hgood
      have hcong : ∀ L ∈ packLines w (tokenize p),
          ((fun l => l.filter (fun c => decide (c ≠ '\n'))) ∘ textOf) L = textOf L := by
        intro L hL
        exact filter_nl_no_nl (packLines_no_nl hnl L hL)
      rw [List.map_congr_left hcong, ← textOf_flatten, hflat, tokenize_flat]

theorem c5_explicit_breaks_witness :
    ((wrapJaText ['a', '\n', 'b'] 1).1).filter (fun c => decide (c ≠ '\n')) =
      ['a', '\n', 'b'].filter (fun c => decide (c ≠ '\n')) :=
  (c5_explicit_breaks ['a', '\n', 'b'] 1 (by decide)).1

/-- C6 counterexample: the tokenizer assigns the template token of the input
consisting of an opening brace, the letters a and b, and a closing brace the
display width 4, the full literal length including both braces, not the inner
text length 2 that the claim states. -/
theorem c6_counterexample :
    tokenize ['{', 'a', 'b', '}'] = [(['{', 'a', 'b', '}'], 4)] ∧ (4 : Nat) ≠ 2 :=
  ⟨by decide, by decide⟩

/-- C6 (amended): the display width of a brace-delimited template token equals
its full literal length, that is the number of characters strictly between the
braces plus the two braces themselves. -/
theorem c6_template_width_amended (cs : List Char) (tok : Tok) (htok : tok ∈ tokenize cs)
    (inner : List Char) (hshape : tok.1 = '{' :: inner ++ ['}']) :
    tok.2 = inner.length + 2 := by
  have hw := tokenize_template_width htok hshape
  rw [hw, hshape]
  simp

theorem c6_template_width_amended_witness :
    ((['{', 'a', 'b', '}'], 4) : Tok).2 = ['a', 'b'].length + 2 :=
  c6_template_width_amended ['{', 'a', 'b', '}'] ((['{', 'a', 'b', '}'], 4) : Tok)
    (by decide) ['a', 'b'] (by decide)

/-- C7 counterexample: on the unterminated-tag input consisting of an opening
bracket followed by the letters a and b, the two letters become a single
two-character token of width 2, not two single-character tokens of width 1
each, contradicting the claim's one-character-at-a-time description. -/
theorem c7_counterexample :
    tokenize ['[', 'a', 'b'] = [(['['], 1), (['a', 'b'], 2)] ∧
    ¬(∀ tok ∈ tokenize ['[', 'a', 'b'], tok.1.length = 1 ∧ tok.2 = 1) :=
  ⟨by decide, by decide⟩

/-- C7 (amended): on inputs where the combined pattern matches at no position,
such as malformed or unterminated markup with no recognized construct,
tokenize raises no exception and degrades to plain-text tokenization, in
which every token is either a single non-alphanumeric character of width 1 or
a maximal ASCII alphanumeric run whose width equals its length. -/
theorem c7_malformed_plain_amended (cs : List Char)
    (hnone : ∀ k, k < cs.length → matchCombined (cs.drop k) = none) :
    tokenize cs = tokenizePlain cs ∧
    ∀ t ∈ tokenizePlain cs,
      (∃ c, t = ([c], 1) ∧ isAsciiAlnum c = false) ∨
      (t.1 ≠ [] ∧ t.2 = t.1.length ∧ ∀ c ∈ t.1, isAsciiAlnum c = true) := by
  constructor
  · rw [tokenize_eq]
    simp only [findNext_build_none hnone]
  · intro t ht
    exact tokenizePlain_shape ht

theorem c7_malformed_plain_amended_witness :
    tokenize ['[', 'a', 'b'] = tokenizePlain ['[', 'a', 'b'] :=
  (c7_malformed_plain_amended ['[', 'a', 'b'] (by decide)).1

/-- C8: the wrapper core is total, all of `tokenize`, `wrapSegment` and
`wrapJaText` being total functions of this development, and the changed flag
returned by `wrapJaText` is true exactly when the returned text differs from
the input. -/
theorem c8_changed_iff (t : List Char) (w : Nat) :
    (wrapJaText t w).2 = true ↔ (wrapJaText t w).1 ≠ t := by
  unfold wrapJaText
  by_cases ht : t = []
  · rw [if_pos ht]
    subst ht
    simp
  · rw [if_neg ht]
    simp

/-- C10: the wrapper never creates empty lines: for a non-empty newline-free
segment every line of `wrapSegment`'s output is non-empty (so the output never
begins or ends with a newline and never contains two adjacent newlines), and
`wrapJaText` preserves the number of empty lines of its input exactly. -/
theorem c10_no_empty_lines (w : Nat) (hpos : 0 < w) :
    (∀ s : List Char, s ≠ [] → '\n' ∉ s → ∀ L ∈ splitNl (wrapSegment s w), L ≠ []) ∧
    (∀ t : List Char, List.count [] (splitNl ((wrapJaText t w).1)) =
      List.count [] (splitNl t)) := by
  constructor
  · intro s hs hnl
    exact wrapSegment_lines_ne_nil hs hnl
  · intro t
    rw [splitNl_wrapJaText]
    have haux : ∀ (parts : List (List Char)), (∀ p ∈ parts, '\n' ∉ p) →
        List.count ([] : List Char)
            ((parts.map (fun p => splitNl (wrapSegment p w))).flatten) =
          List.count [] parts := by
      intro parts
      induction parts with
      | nil => intro _; rfl
      | cons p parts' ih =>
        intro hnl
        rw [List.map_cons, List.flatten_cons, List.count_append,
          ih (fun q hq => hnl q (List.mem_cons_of_mem _ hq))]
        by_cases hpnil : p = []
        · subst hpnil
          rw [wrapSegment_nil]
          rw [show splitNl ([] : List Char) = [[]] from rfl]
          simp [List.count_cons]
          omega
        · have hblock : List.count ([] : List Char) (splitNl (wrapSegment p w)) = 0 := by
            rw [List.count_eq_zero]
            intro hmem
            exact wrapSegment_lines_ne_nil hpnil (hnl p (List.mem_cons_self p parts')) []
              hmem rfl
          rw [hblock]
          rw [List.count_cons]
          simp [hpnil]
    exact haux (splitNl t) (splitNl_mem_no_nl t)

theorem c10_no_empty_lines_witness :
    List.count [] (splitNl ((wrapJaText ['a', '\n', '\n', 'b'] 2).1)) =
      List.count [] (splitNl ['a', '\n', '\n', 'b']) :=
  (c10_no_empty_lines 2 (by decide)).2 ['a', '\n', '\n', 'b']

/-- C9: merging never clobbers an existing cell: `mergeFile` writes every base
row through in order with its key and all other fields unchanged; a row whose
target cell is non-blank after stripping is written entirely unchanged and is
counted as skipped exactly when its key has a translated value; the target
cell changes only when it was blank and the translated index supplies a
non-blank value for the same key, which is then written; and the index only
ever contains non-blank keys with values that are non-blank after
stripping. -/
theorem c9_merge_no_clobber (translated : List (Option (List Char) × Option (List Char)))
    (base : List MergeRow) :
    (mergeFile translated base).1.length = base.length ∧
    List.Forall₂ (fun r' r => r'.key = r.key ∧ r'.other = r.other ∧
      (normalizeText r.target ≠ [] → r' = r) ∧
      (r'.target ≠ r.target → normalizeText r.target = [] ∧
        ∃ v, buildIndex translated (normalizeText r.key) = some v ∧ strip v ≠ [] ∧
          r'.target = some v))
      (mergeFile translated base).1 base ∧
    (mergeFile translated base).2.1 = base.countP (fun r =>
      (buildIndex translated (normalizeText r.key)).isSome &&
        (normalizeText r.target).isEmpty) ∧
    (mergeFile translated base).2.2 = base.countP (fun r =>
      (buildIndex translated (normalizeText r.key)).isSome &&
        !(normalizeText r.target).isEmpty) ∧
    (∀ k v, buildIndex translated k = some v → k ≠ [] ∧ strip v ≠ []) := by
  obtain ⟨hlen, hfa, hm, hs⟩ := mergeRows_spec (buildIndex translated) base
  refine ⟨hlen, ?_, hm, hs, fun k v h => buildIndex_nonblank h⟩
  refine List.Forall₂.imp ?_ hfa
  intro r' r hr
  refine ⟨hr.1, hr.2.1, hr.2.2.1, ?_⟩
  intro hx
  obtain ⟨hblank, v, hv, htgt⟩ := hr.2.2.2 hx
  exact ⟨hblank, v, hv, (buildIndex_nonblank hv).2, htgt⟩
